import Mathlib

/-!
Verification of the logico boolean-expression evaluator.

The development shallowly embeds the Rust sources (`src/tokens.rs`,
`src/parser.rs`, `src/expression.rs`, `src/main.rs`).  Strings are modelled
as lists of characters; Rust byte positions are modelled through
`Char.utf8Size`; a Rust panic is modelled by `Option.none` wrapped around a
function's result; recursive Rust functions are modelled with an explicit
fuel argument together with a fuel-irrelevance lemma, so that every
definition stays executable.
-/

namespace Logico

/-! ## Tokens (src/tokens.rs) -/

/-- The payload of `Token` from `src/tokens.rs`; the position field common to
all variants is factored into the `Token` structure below. -/
inductive TokenKind where
  | Value (value : Bool)
  | Variable (name : String)
  | Operator (name : String)
  | OpenParanthesis
  | CloseParanthesis
deriving DecidableEq, Repr

/-- `Token` from `src/tokens.rs`: a kind together with the byte position of
the token in the source text. -/
structure Token where
  pos : Nat
  kind : TokenKind
deriving DecidableEq, Repr

/-- `ParseError` from `src/tokens.rs`. -/
structure ParseError where
  message : String
  pos : Nat
  len : Nat
deriving DecidableEq, Repr

/-- Models `char::is_alphabetic` from Rust, restricted to the ASCII letters
plus the Latin-1 letter block (which is all this development ever feeds it);
U+00D7 and U+00F7 are the two non-letters inside that block. -/
def rustIsAlphabetic (c : Char) : Bool :=
  c.isAlpha ||
    (decide (0xC0 ≤ c.toNat) && decide (c.toNat ≤ 0xFF) &&
     decide (c.toNat ≠ 0xD7) && decide (c.toNat ≠ 0xF7))

/-- The number of UTF-8 bytes of a character list; models Rust `str::len`. -/
def byteLen (cs : List Char) : Nat :=
  (cs.map Char.utf8Size).sum

/-- `token_pos` from `src/tokens.rs`. -/
def token_pos (token : Token) : Nat :=
  token.pos

/-- `token_len` from `src/tokens.rs` (byte length of the token's text). -/
def token_len (token : Token) : Nat :=
  match token.kind with
  | .Value _ => 1
  | .Variable name => byteLen name.data
  | .Operator name => byteLen name.data
  | .OpenParanthesis => 1
  | .CloseParanthesis => 1

/-- `token_name` from `src/tokens.rs`. -/
def token_name (token : Token) : String :=
  match token.kind with
  | .Value value => if value then "1" else "0"
  | .Operator name => name
  | .Variable name => name
  | .OpenParanthesis => "("
  | .CloseParanthesis => ")"

/-- Models the Rust slice `&rest[..n]` on a string: the characters covering
exactly the first `n` bytes, or `none` when `n` is not a character boundary
or exceeds the length (where Rust panics). -/
def takeBytes : List Char → Nat → Option (List Char)
  | _, 0 => some []
  | [], _ + 1 => none
  | c :: cs, n + 1 =>
    if c.utf8Size ≤ n + 1 then (takeBytes cs (n + 1 - c.utf8Size)).map (c :: ·)
    else none

/-- Models the Rust slice `&rest[n..]`, with `none` for the panicking cases,
as in `takeBytes`. -/
def dropBytes : List Char → Nat → Option (List Char)
  | cs, 0 => some cs
  | [], _ + 1 => none
  | c :: cs, n + 1 =>
    if c.utf8Size ≤ n + 1 then dropBytes cs (n + 1 - c.utf8Size)
    else none

/-- The identifier loop of `tokenize` (`src/tokens.rs` lines 100-103):
`cs` is the part of `rest` from character index `i` on, and `B` is
`rest.len()` in bytes (fixed over the whole loop).  The loop tests
`i < rest.len()` against the byte length but indexes `char_at(rest, i)` by
character; running off the end of the characters is the `chars().nth`
panic in `char_at`, modelled by `none`. -/
def identScanGo (B : Nat) : List Char → Nat → Option Nat
  | cs, i =>
    if i < B then
      match cs with
      | [] => none
      | c :: cs' => if rustIsAlphabetic c then identScanGo B cs' (i + 1) else some i
    else some i

/-- The final value of `i` after the identifier loop of `tokenize`, or
`none` when the loop panics. -/
def identScan (rest : List Char) : Option Nat :=
  identScanGo (byteLen rest) rest 0

/-- The loop body of `tokenize` (`src/tokens.rs` lines 90-130), with an
explicit fuel argument (every iteration consumes at least one character, so
fuel `rest.length + 1` always suffices; see `tokenizeLoop_congr`).  `pos` is
the current byte offset and `acc` the tokens pushed so far.  The outer
`Option` is `none` exactly when the Rust code panics. -/
def tokenizeLoop : Nat → List Char → Nat → List Token → Option (Except ParseError (List Token))
  | 0, _, _, _ => none
  | fuel + 1, rest, pos, acc =>
    match rest with
    | [] =>
      some (if acc.isEmpty then .error ⟨"no input.", pos, 0⟩ else .ok acc)
    | c :: cs =>
      if c = ' ' ∨ c = '\t' then
        tokenizeLoop fuel cs (pos + 1) acc
      else
        match identScan rest with
        | none => none
        | some i =>
          if 0 < i then
            match takeBytes rest i, dropBytes rest i with
            | some name, some rest2 =>
              tokenizeLoop fuel rest2 (pos + i) (acc ++ [⟨pos, .Variable (String.mk name)⟩])
            | _, _ => none
          else if c = '=' ∧ cs.head? = some '>' then
            tokenizeLoop fuel cs.tail (pos + 2) (acc ++ [⟨pos, .Operator "=>"⟩])
          else if c = '0' then tokenizeLoop fuel cs (pos + 1) (acc ++ [⟨pos, .Value false⟩])
          else if c = '1' then tokenizeLoop fuel cs (pos + 1) (acc ++ [⟨pos, .Value true⟩])
          else if c = '&' then tokenizeLoop fuel cs (pos + 1) (acc ++ [⟨pos, .Operator "&"⟩])
          else if c = '|' then tokenizeLoop fuel cs (pos + 1) (acc ++ [⟨pos, .Operator "|"⟩])
          else if c = '^' then tokenizeLoop fuel cs (pos + 1) (acc ++ [⟨pos, .Operator "^"⟩])
          else if c = '=' then tokenizeLoop fuel cs (pos + 1) (acc ++ [⟨pos, .Operator "="⟩])
          else if c = '!' then tokenizeLoop fuel cs (pos + 1) (acc ++ [⟨pos, .Operator "!"⟩])
          else if c = '(' then
            tokenizeLoop fuel cs (pos + 1) (acc ++ [⟨pos, .OpenParanthesis⟩])
          else if c = ')' then
            tokenizeLoop fuel cs (pos + 1) (acc ++ [⟨pos, .CloseParanthesis⟩])
          else
            some (.error ⟨"Invalid character '" ++ String.mk [c] ++ "'", pos, 1⟩)

/-- `tokenizeLoop` at its canonical fuel. -/
def tokenizeRun (cs : List Char) (pos : Nat) (acc : List Token) :
    Option (Except ParseError (List Token)) :=
  tokenizeLoop (cs.length + 1) cs pos acc

/-- `tokenize` from `src/tokens.rs`.  At loop exit the running byte offset
`pos` equals `str.len()`, so the "no input." error position agrees with the
source. -/
def tokenize (str : String) : Option (Except ParseError (List Token)) :=
  tokenizeRun str.data 0 []

/-! ## Expressions (src/expression.rs) -/

/-- `UnaryOperator` from `src/expression.rs`. -/
inductive UnaryOperator where
  | NEG
deriving DecidableEq, Repr

/-- `BinaryOperator` from `src/expression.rs`. -/
inductive BinaryOperator where
  | OR
  | AND
  | XOR
  | IMP
  | EQ
deriving DecidableEq, Repr

/-- The expression tree: the closed set of `Expression` implementations of
`src/expression.rs` (`Value`, `Variable`, `UnaryExpression`,
`BinaryExpression`) as one sum type. -/
inductive Expr where
  | Value (value : Bool)
  | Variable (name : String)
  | UnaryExpression (op : UnaryOperator) (arg : Expr)
  | BinaryExpression (op : BinaryOperator) (left : Expr) (right : Expr)
deriving DecidableEq, Repr

/-- The `precedence` of a `BinaryExpression` by operator. -/
def binPrecedence : BinaryOperator → Nat
  | .OR => 1
  | .XOR => 1
  | .AND => 2
  | .EQ => 0
  | .IMP => 0

/-- `Expression::precedence` over the closed node set. -/
def precedence : Expr → Nat
  | .Value _ => 4
  | .Variable _ => 4
  | .UnaryExpression .NEG _ => 3
  | .BinaryExpression op _ _ => binPrecedence op

/-- The textual symbol of a binary operator as printed by `to_string`. -/
def opSymbol : BinaryOperator → String
  | .OR => "|"
  | .XOR => "^"
  | .AND => "&"
  | .EQ => "="
  | .IMP => "=>"

/-- `Expression::to_string` over the closed node set.  The helper
`to_string(expr, parent_precedence)` of `src/expression.rs` (wrap the child
in parentheses unless its precedence exceeds the parent's) is inlined at
each child. -/
def to_string : Expr → String
  | .Value value => if value then "1" else "0"
  | .Variable name => name
  | .UnaryExpression .NEG arg =>
    "!" ++ (if 3 < precedence arg then to_string arg else "(" ++ to_string arg ++ ")")
  | .BinaryExpression op left right =>
    (if binPrecedence op < precedence left then to_string left
     else "(" ++ to_string left ++ ")")
    ++ " " ++ opSymbol op ++ " " ++
    (if binPrecedence op < precedence right then to_string right
     else "(" ++ to_string right ++ ")")

/-- The node-kind name used by `to_dump_string` for a binary operator. -/
def dumpName : BinaryOperator → String
  | .OR => "Or"
  | .XOR => "Xor"
  | .AND => "And"
  | .EQ => "Eq"
  | .IMP => "Imp"

/-- `Expression::to_dump_string` over the closed node set. -/
def to_dump_string : Expr → String
  | .Value value => if value then "Value(1)" else "Value(0)"
  | .Variable name => "Variable(" ++ name ++ ")"
  | .UnaryExpression .NEG arg => "Neg(" ++ to_dump_string arg ++ ")"
  | .BinaryExpression op left right =>
    dumpName op ++ "(" ++ to_dump_string left ++ "," ++ to_dump_string right ++ ")"

/-- The list of variable names occurring in a tree, in pre-order; the set of
names collected by `collect_variables` in `src/main.rs` via `traverse`. -/
def varsOf : Expr → List String
  | .Value _ => []
  | .Variable name => [name]
  | .UnaryExpression _ arg => varsOf arg
  | .BinaryExpression _ left right => varsOf left ++ varsOf right

/-! ## Evaluation context (src/expression.rs) -/

/-- Lookup in a `BTreeMap<String, bool>` modelled as an association list
(the observable find/insert behaviour of the map; ordering of entries is
irrelevant to every use in the sources). -/
def mapFind (m : List (String × Bool)) (k : String) : Option Bool :=
  match m with
  | [] => none
  | (k2, v) :: m2 => if k2 = k then some v else mapFind m2 k

/-- Insert/overwrite in the modelled `BTreeMap<String, bool>`. -/
def mapInsert (m : List (String × Bool)) (k : String) (v : Bool) : List (String × Bool) :=
  match m with
  | [] => [(k, v)]
  | (k2, v2) :: m2 => if k2 = k then (k, v) :: m2 else (k2, v2) :: mapInsert m2 k v

/-- `BTreeSet::remove` on a set modelled as a list (kept in ascending order
by the invariants of the callers). -/
def setRemove (s : List String) (x : String) : List String :=
  s.filter (fun y => y ≠ x)

/-- `EvaluationContext` from `src/expression.rs`: `vars` (named `variables`
in the source; that word is reserved in Lean) and `not_preset` model
`BTreeSet<String>` as lists in ascending order, `values` models the
`BTreeMap<String, bool>`. -/
structure EvaluationContext where
  vars : List String
  not_preset : List String
  values : List (String × Bool)
deriving DecidableEq, Repr

/-- `EvaluationContext::new`. -/
def EvaluationContext.new (vars : List String) : EvaluationContext :=
  ⟨vars, vars, []⟩

/-- `EvaluationContext::preset`.  Rust mutates `self` and returns a
`Result`; the model returns the result paired with the updated context. -/
def preset (ctxt : EvaluationContext) (name : String) (preset_value : Bool) :
    Except String Bool × EvaluationContext :=
  if name ∈ ctxt.vars then
    if name ∈ ctxt.not_preset then
      (.ok preset_value,
       { ctxt with
           not_preset := setRemove ctxt.not_preset name
           values := mapInsert ctxt.values name preset_value })
    else
      (.error ("variable '" ++ name ++ "' preset twice - ignoring second time"), ctxt)
  else
    (.error ("no variable named '" ++ name ++ "'"), ctxt)

/-- `EvaluationContext::get`; `none` models the `unwrap` panic on a missing
variable. -/
def ctxtGet (ctxt : EvaluationContext) (name : String) : Option Bool :=
  mapFind ctxt.values name

/-- The loop of `EvaluationContext::set_not_presets`: insert, for the `i`-th
not-preset variable, the value of bit `i` of the mask (`(values & (1 << i))
!= 0` in the source; the mask is a `u128` there, which agrees with `Nat`
for the bit indices `i < 128` used by `main`). -/
def set_not_presetsGo (mask : Nat) : List (String × Bool) → List String → Nat →
    List (String × Bool)
  | values, [], _ => values
  | values, v :: vs, i =>
    set_not_presetsGo mask (mapInsert values v ((mask &&& (1 <<< i)) != 0)) vs (i + 1)

/-- `EvaluationContext::set_not_presets`. -/
def set_not_presets (ctxt : EvaluationContext) (mask : Nat) : EvaluationContext :=
  { ctxt with values := set_not_presetsGo mask ctxt.values ctxt.not_preset 0 }

/-- `Expression::eval` over the closed node set; `none` models the panic of
`EvaluationContext::get` on a variable without a value.  The Rust `||`,
`&&` and `!left || right` short-circuit, which the model preserves. -/
def eval : Expr → EvaluationContext → Option Bool
  | .Value value, _ => some value
  | .Variable name, ctxt => ctxtGet ctxt name
  | .UnaryExpression .NEG arg, ctxt => (eval arg ctxt).map (! ·)
  | .BinaryExpression .OR left right, ctxt =>
    match eval left ctxt with
    | none => none
    | some true => some true
    | some false => eval right ctxt
  | .BinaryExpression .XOR left right, ctxt =>
    match eval left ctxt, eval right ctxt with
    | some a, some b => some (a != b)
    | _, _ => none
  | .BinaryExpression .AND left right, ctxt =>
    match eval left ctxt with
    | none => none
    | some false => some false
    | some true => eval right ctxt
  | .BinaryExpression .EQ left right, ctxt =>
    match eval left ctxt, eval right ctxt with
    | some a, some b => some (a == b)
    | _, _ => none
  | .BinaryExpression .IMP left right, ctxt =>
    match eval left ctxt with
    | none => none
    | some false => some true
    | some true => eval right ctxt

/-! ## Parser (src/parser.rs) -/

/-- `get_precedence` from `src/parser.rs`.  Rust panics on any other
operator name; every theorem below only applies it to the six-name
alphabet, where the default branch is never taken. -/
def get_precedence (operator : String) : Nat :=
  match operator with
  | "=" => 0
  | "=>" => 0
  | "|" => 1
  | "^" => 1
  | "&" => 2
  | "!" => 3
  | _ => 0

/-- `has_higher_precedence` from `src/parser.rs`: `true` tells the scan to
replace the current candidate by the new token.  Note the Rust wildcard arm
returns `true` for `None` (and for a non-operator candidate, which the scan
never stores). -/
def has_higher_precedence (current : Option (Nat × Token)) (new : Token) : Bool :=
  match current with
  | some (_, t) =>
    match t.kind with
    | .Operator cname =>
      match new.kind with
      | .Operator nname => decide (get_precedence cname > get_precedence nname)
      | _ => false
    | _ => true
  | none => true

/-- The scan loop of `find_top_level_operator`: `i` is the index of the head
of `ts` in the full list, `plevel` the parenthesis nesting level, `result`
the current candidate. -/
def findGo : List Token → Nat → Int → Option (Nat × Token) → Option (Nat × Token)
  | [], _, _, result => result
  | t :: ts, i, plevel, result =>
    match t.kind with
    | .Operator _ =>
      findGo ts (i + 1) plevel
        (if plevel = 0 then
          (if has_higher_precedence result t then some (i, t) else result)
         else result)
    | .OpenParanthesis => findGo ts (i + 1) (plevel + 1) result
    | .CloseParanthesis => findGo ts (i + 1) (plevel - 1) result
    | _ => findGo ts (i + 1) plevel result

/-- `find_top_level_operator` from `src/parser.rs`. -/
def find_top_level_operator (tokens : List Token) : Option Nat :=
  (findGo tokens 0 0 none).map (fun r => r.1)

/-- `parse_single_token_expression` from `src/parser.rs`. -/
def parse_single_token_expression (token : Token) : Except ParseError Expr :=
  match token.kind with
  | .Value value => .ok (.Value value)
  | .Variable name => .ok (.Variable name)
  | .Operator name => .error ⟨"value or variable expected", token.pos, byteLen name.data⟩
  | .OpenParanthesis => .error ⟨"value or variable expected", token.pos, 1⟩
  | .CloseParanthesis => .error ⟨"value or variable expected", token.pos, 1⟩

/-- The scan loop of `parse_paranthesis_expression` (`src/parser.rs` lines
34-49): returns the final `plevel`, or the "operator expected" error raised
when the level drops below zero with at least one token still following. -/
def paren_scan : List Token → Int → Except ParseError Int
  | [], plevel => .ok plevel
  | t :: ts, plevel =>
    match t.kind with
    | .OpenParanthesis => paren_scan ts (plevel + 1)
    | .CloseParanthesis =>
      if plevel - 1 < 0 then
        match ts.head? with
        | some nxt => .error ⟨"operator expected", nxt.pos, token_len nxt⟩
        | none => paren_scan ts (plevel - 1)
      else paren_scan ts (plevel - 1)
    | _ => paren_scan ts plevel

/-- `parse_paranthesis_expression` from `src/parser.rs`, over an abstract
recursive-parse callback `p`.  The empty and singleton fallbacks in the
non-parenthesis arms stand for Rust index panics that `parse` never
reaches (it only calls this with at least two tokens). -/
def parse_paranthesis_expressionG (p : List Token → Except ParseError Expr)
    (tokens : List Token) : Except ParseError Expr :=
  match tokens with
  | [] => .error ⟨"operator expected", 0, 0⟩
  | t0 :: rest0 =>
    match t0.kind with
    | .OpenParanthesis =>
      match paren_scan tokens 0 with
      | .error err => .error err
      | .ok plevel =>
        if 0 < plevel then
          match tokens.getLast? with
          | some tl => .error ⟨"\")\" expected", tl.pos + token_len tl, 0⟩
          | none => .error ⟨"\")\" expected", 0, 0⟩
        else p (tokens.drop 1).dropLast
    | _ =>
      match rest0.head? with
      | some t1 => .error ⟨"operator expected", t1.pos, token_len t1⟩
      | none => .error ⟨"operator expected", t0.pos, token_len t0⟩

/-- `parse_operator_expression` from `src/parser.rs`, over an abstract
recursive-parse callback `p`.  The `none` arm of the index lookup stands for
the Rust index panic on an out-of-range `op_pos`, which `parse` never
produces. -/
def parse_operator_expressionG (p : List Token → Except ParseError Expr)
    (tokens : List Token) (op_pos : Nat) : Except ParseError Expr :=
  match tokens.get? op_pos with
  | none => .error ⟨"value or variable expected", 0, 0⟩
  | some token =>
    match (if 0 < op_pos then (p (tokens.take op_pos)).map some else .ok none :
        Except ParseError (Option Expr)) with
    | .error err => .error err
    | .ok left =>
      match (if op_pos < tokens.length - 1 then (p (tokens.drop (op_pos + 1))).map some
             else .ok none : Except ParseError (Option Expr)) with
      | .error err => .error err
      | .ok right =>
        match right with
        | none => .error ⟨"missing right hand side operand", token.pos + token_len token, 0⟩
        | some right =>
          match left with
          | some left =>
            if token_name token = "!" then
              .error ⟨"unexpected left hand side operand",
                      (tokens.headD token).pos,
                      (tokens.getD (op_pos - 1) token).pos
                        + token_len (tokens.getD (op_pos - 1) token)⟩
            else if token_name token = "|" then .ok (.BinaryExpression .OR left right)
            else if token_name token = "&" then .ok (.BinaryExpression .AND left right)
            else if token_name token = "^" then .ok (.BinaryExpression .XOR left right)
            else if token_name token = "=" then .ok (.BinaryExpression .EQ left right)
            else if token_name token = "=>" then .ok (.BinaryExpression .IMP left right)
            else
              .error ⟨"unknown operator '" ++ token_name token ++ "'",
                      token.pos, token_len token⟩
          | none =>
            if token_name token = "!" then .ok (.UnaryExpression .NEG right)
            else if token_name token = "|" ∨ token_name token = "&" ∨
                token_name token = "^" ∨ token_name token = "=" ∨
                token_name token = "=>" then
              .error ⟨"missing left hand side operand", token.pos, 0⟩
            else
              .error ⟨"unknown operator '" ++ token_name token ++ "'",
                      token.pos, token_len token⟩

/-- `parse` from `src/parser.rs`, with an explicit fuel argument (the
recursion always descends to a strictly shorter token slice, so fuel
`tokens.length + 1` suffices; see `parseF_congr`). -/
def parseF : Nat → List Token → Except ParseError Expr
  | 0, _ => .error ⟨"Missing input", 0, 0⟩
  | fuel + 1, tokens =>
    match tokens with
    | [] => .error ⟨"Missing input", 0, 0⟩
    | [t] => parse_single_token_expression t
    | _ :: _ :: _ =>
      match find_top_level_operator tokens with
      | some pos => parse_operator_expressionG (parseF fuel) tokens pos
      | none => parse_paranthesis_expressionG (parseF fuel) tokens

/-- `parse` at its canonical fuel. -/
def parse (tokens : List Token) : Except ParseError Expr :=
  parseF (tokens.length + 1) tokens

/-- `parse_expr` from `src/main.rs`: tokenize, then parse. -/
def parse_expr (str : String) : Option (Except ParseError Expr) :=
  (tokenize str).map (fun r =>
    match r with
    | .ok tokens => parse tokens
    | .error err => .error err)

/-! ## Derived notions used by the statements and proofs -/

/-- Contribution of one token kind to the parenthesis nesting level. -/
def kdepth : TokenKind → Int
  | .OpenParanthesis => 1
  | .CloseParanthesis => -1
  | _ => 0

/-- Total nesting-level change over a kind list. -/
def depthSum (ks : List TokenKind) : Int :=
  (ks.map kdepth).sum

/-- Every operator sitting at nesting level zero (relative to the start
level `pl`) has `get_precedence` at least `q`. -/
def opsMin : List TokenKind → Int → Nat → Prop
  | [], _, _ => True
  | k :: ks, pl, q =>
    (∀ nm, k = TokenKind.Operator nm → pl = 0 → q ≤ get_precedence nm) ∧
      opsMin ks (pl + kdepth k) q

/-- No operator sits at nesting level zero (relative to the start level). -/
def opsOff : List TokenKind → Int → Prop
  | [], _ => True
  | k :: ks, pl =>
    (∀ nm, k = TokenKind.Operator nm → pl ≠ 0) ∧ opsOff ks (pl + kdepth k)

/-- The token kinds of the text `to_string` prints for a tree, with the
parenthesis-wrapping rule of the printer inlined exactly as in
`to_string`. -/
def printKinds : Expr → List TokenKind
  | .Value value => [TokenKind.Value value]
  | .Variable name => [TokenKind.Variable name]
  | .UnaryExpression .NEG arg =>
    TokenKind.Operator "!" ::
      (if 3 < precedence arg then printKinds arg
       else TokenKind.OpenParanthesis :: (printKinds arg ++ [TokenKind.CloseParanthesis]))
  | .BinaryExpression op left right =>
    (if binPrecedence op < precedence left then printKinds left
     else TokenKind.OpenParanthesis :: (printKinds left ++ [TokenKind.CloseParanthesis]))
    ++ TokenKind.Operator (opSymbol op) ::
      (if binPrecedence op < precedence right then printKinds right
       else TokenKind.OpenParanthesis :: (printKinds right ++ [TokenKind.CloseParanthesis]))

/-- The kinds the printer emits for a child under a parent of precedence
`p`: the child bare when it binds strictly tighter, else in parentheses. -/
def wrapKinds (p : Nat) (e : Expr) : List TokenKind :=
  if p < precedence e then printKinds e
  else TokenKind.OpenParanthesis :: (printKinds e ++ [TokenKind.CloseParanthesis])

/-- A variable name the tokenizer reproduces as a single token: non-empty,
alphabetic, and single-byte characters throughout. -/
def goodNameChars (cs : List Char) : Prop :=
  cs ≠ [] ∧ ∀ c ∈ cs, rustIsAlphabetic c = true ∧ c.utf8Size = 1

/-- `goodNameChars` on a string. -/
def goodName (s : String) : Prop :=
  goodNameChars s.data

/-- All variable names of a tree are good. -/
def goodNames (e : Expr) : Prop :=
  ∀ n ∈ varsOf e, goodName n

/-- The head of the character list, if any, is not alphabetic. -/
def headNotAlpha (cs : List Char) : Prop :=
  ∀ c, cs.head? = some c → rustIsAlphabetic c = false

/-- The character list starts with an alphabetic character. -/
def headAlpha (cs : List Char) : Prop :=
  ∃ c, cs.head? = some c ∧ rustIsAlphabetic c = true

/-- Kinds that stand for an operand (a value or a variable). -/
def isOperandK : TokenKind → Bool
  | .Value _ => true
  | .Variable _ => true
  | _ => false

/-- No two adjacent tokens are both operands. -/
def noAdjOperands (ts : List Token) : Prop :=
  ∀ i t t', ts.get? i = some t → ts.get? (i + 1) = some t' →
    isOperandK t.kind = true → isOperandK t'.kind = true → False

/-- Every variable token either carries a good name or is immediately
followed by another variable token (the invariant `tokenize` guarantees
for its output). -/
def varTokensChained (ts : List Token) : Prop :=
  ∀ i nm, (ts.get? i).map Token.kind = some (TokenKind.Variable nm) →
    goodName nm ∨ ∃ nm2, (ts.get? (i + 1)).map Token.kind = some (TokenKind.Variable nm2)

/-- Token list of a chain `v0 op1 v1 op2 v2 ...` of single-variable operands
(all token positions zero; `parse` ignores positions on its success path). -/
def chainToks : String → List (BinaryOperator × String) → List Token
  | v0, [] => [⟨0, TokenKind.Variable v0⟩]
  | v0, (o, v) :: rest =>
    ⟨0, TokenKind.Variable v0⟩ :: ⟨0, TokenKind.Operator (opSymbol o)⟩ :: chainToks v rest

/-- The right-nested tree over the same chain. -/
def chainExpr : String → List (BinaryOperator × String) → Expr
  | v0, [] => .Variable v0
  | v0, (o, v) :: rest => .BinaryExpression o (.Variable v0) (chainExpr v rest)

/-- Whether the outermost node is an implication. -/
def isImp : Expr → Bool
  | .BinaryExpression .IMP _ _ => true
  | _ => false

/-- The number whose little-endian bits are the given list. -/
def ofBits : List Bool → Nat
  | [] => 0
  | b :: bs => (if b then 1 else 0) + 2 * ofBits bs

/-- The candidate stored by the precedence scan is absent or an operator of
precedence at least `q`. -/
def resMin (q : Nat) (r : Option (Nat × Token)) : Prop :=
  r = none ∨ ∃ j t nm, r = some (j, t) ∧ t.kind = TokenKind.Operator nm ∧ q ≤ get_precedence nm

/-- Every prefix of the kind list has non-negative depth sum. -/
def prefixesNonneg (ks : List TokenKind) : Prop :=
  ∀ n, 0 ≤ depthSum (ks.take n)

/-- Every variable of the expression has a value in the context's mapping. -/
def coversVars (ctxt : EvaluationContext) (e : Expr) : Prop :=
  ∀ n ∈ varsOf e, (mapFind ctxt.values n).isSome = true

/-! ## Byte-length and slicing lemmas -/

theorem byteLen_nil : byteLen [] = 0 := rfl

theorem byteLen_cons (c : Char) (cs : List Char) :
    byteLen (c :: cs) = c.utf8Size + byteLen cs := by
  simp [byteLen]

theorem byteLen_append (xs ys : List Char) :
    byteLen (xs ++ ys) = byteLen xs + byteLen ys := by
  simp [byteLen]

theorem length_le_byteLen (cs : List Char) : cs.length ≤ byteLen cs := by
  induction cs with
  | nil => simp [byteLen]
  | cons c cs ih =>
    have := Char.utf8Size_pos c
    simp only [byteLen_cons, List.length_cons]
    omega

theorem byteLen_of_ascii (cs : List Char) (h : ∀ c ∈ cs, c.utf8Size = 1) :
    byteLen cs = cs.length := by
  induction cs with
  | nil => simp [byteLen]
  | cons c cs ih =>
    simp only [byteLen_cons, List.length_cons, h c (by simp)]
    rw [ih (fun c hc => h c (by simp [hc]))]
    omega

theorem byteLen_cons_pos (c : Char) (cs : List Char) : 0 < byteLen (c :: cs) := by
  have := Char.utf8Size_pos c
  simp only [byteLen_cons]
  omega

theorem takeBytes_cons_of_le (c : Char) (cs : List Char) (n : Nat)
    (h1 : 0 < n) (h2 : c.utf8Size ≤ n) :
    takeBytes (c :: cs) n = (takeBytes cs (n - c.utf8Size)).map (c :: ·) := by
  obtain ⟨m, rfl⟩ : ∃ m, n = m + 1 := ⟨n - 1, by omega⟩
  simp [takeBytes, h2]

theorem dropBytes_cons_of_le (c : Char) (cs : List Char) (n : Nat)
    (h1 : 0 < n) (h2 : c.utf8Size ≤ n) :
    dropBytes (c :: cs) n = dropBytes cs (n - c.utf8Size) := by
  obtain ⟨m, rfl⟩ : ∃ m, n = m + 1 := ⟨n - 1, by omega⟩
  simp [dropBytes, h2]

theorem takeBytes_append_self (xs ys : List Char) :
    takeBytes (xs ++ ys) (byteLen xs) = some xs := by
  induction xs with
  | nil => simp [byteLen, takeBytes]
  | cons c xs ih =>
    have hpos := Char.utf8Size_pos c
    rw [List.cons_append,
      takeBytes_cons_of_le c (xs ++ ys) (byteLen (c :: xs))
        (byteLen_cons_pos c xs) (by simp [byteLen_cons])]
    have : byteLen (c :: xs) - c.utf8Size = byteLen xs := by
      simp [byteLen_cons]
    rw [this, ih]
    rfl

theorem dropBytes_append_self (xs ys : List Char) :
    dropBytes (xs ++ ys) (byteLen xs) = some ys := by
  induction xs with
  | nil => simp [byteLen, dropBytes]
  | cons c xs ih =>
    have hpos := Char.utf8Size_pos c
    rw [List.cons_append,
      dropBytes_cons_of_le c (xs ++ ys) (byteLen (c :: xs))
        (byteLen_cons_pos c xs) (by simp [byteLen_cons])]
    have : byteLen (c :: xs) - c.utf8Size = byteLen xs := by
      simp [byteLen_cons]
    rw [this, ih]

theorem dropBytes_decomp : ∀ (cs : List Char) (n : Nat) (l : List Char),
    dropBytes cs n = some l → ∃ xs, cs = xs ++ l ∧ byteLen xs = n := by
  intro cs
  induction cs with
  | nil =>
    intro n l h
    match n, h with
    | 0, h => exact ⟨[], by simpa [dropBytes] using h.symm, rfl⟩
  | cons c cs ih =>
    intro n l h
    match n, h with
    | 0, h =>
      simp only [dropBytes, Option.some.injEq] at h
      exact ⟨[], by simp [h], rfl⟩
    | m + 1, h =>
      simp only [dropBytes] at h
      by_cases hle : c.utf8Size ≤ m + 1
      · rw [if_pos hle] at h
        obtain ⟨xs, hxs, hb⟩ := ih _ _ h
        exact ⟨c :: xs, by simp [hxs], by simp [byteLen_cons, hb]; omega⟩
      · rw [if_neg hle] at h
        exact absurd h (by simp)

theorem takeBytes_decomp : ∀ (cs : List Char) (n : Nat) (xs : List Char),
    takeBytes cs n = some xs → ∃ l, cs = xs ++ l ∧ byteLen xs = n := by
  intro cs
  induction cs with
  | nil =>
    intro n xs h
    match n, h with
    | 0, h =>
      simp only [takeBytes, Option.some.injEq] at h
      exact ⟨[], by simp [h.symm], by simp [← h, byteLen]⟩
  | cons c cs ih =>
    intro n xs h
    match n, h with
    | 0, h =>
      simp only [takeBytes, Option.some.injEq] at h
      exact ⟨c :: cs, by simp [← h], by simp [← h, byteLen]⟩
    | m + 1, h =>
      simp only [takeBytes] at h
      by_cases hle : c.utf8Size ≤ m + 1
      · rw [if_pos hle] at h
        cases htk : takeBytes cs (m + 1 - c.utf8Size) with
        | none => rw [htk] at h; exact absurd h (by simp)
        | some ys =>
          rw [htk] at h
          simp only [Option.map_some', Option.some.injEq] at h
          obtain ⟨l, hl, hb⟩ := ih _ _ htk
          exact ⟨l, by simp [← h, hl], by simp [← h, byteLen_cons, hb]; omega⟩
      · rw [if_neg hle] at h
        exact absurd h (by simp)

theorem dropBytes_length_lt {cs l : List Char} {n : Nat}
    (h : dropBytes cs n = some l) (hn : 1 ≤ n) : l.length < cs.length := by
  obtain ⟨xs, rfl, hb⟩ := dropBytes_decomp cs n l h
  have hne : xs ≠ [] := by
    intro he
    rw [he] at hb
    simp [byteLen] at hb
    omega
  have : 0 < xs.length := List.length_pos.mpr hne
  simp only [List.length_append]
  omega

/-! ## Identifier-scan lemmas -/

theorem identScanGo_ascii : ∀ (name cs : List Char) (i B : Nat),
    (∀ c ∈ name, rustIsAlphabetic c = true ∧ c.utf8Size = 1) →
    headNotAlpha cs →
    B = i + byteLen (name ++ cs) →
    identScanGo B (name ++ cs) i = some (i + name.length) := by
  intro name
  induction name with
  | nil =>
    intro cs i B hn hh hB
    cases cs with
    | nil =>
      simp only [List.nil_append, byteLen_nil] at hB
      simp [identScanGo, hB]
    | cons c cs =>
      have hc : rustIsAlphabetic c = false := hh c rfl
      have : i < B := by
        have := byteLen_cons_pos c cs
        simp only [List.nil_append] at hB
        omega
      simp [identScanGo, this, hc]
  | cons c name ih =>
    intro cs i B hn hh hB
    have hc := hn c (by simp)
    have hlt : i < B := by
      have h1 := byteLen_cons_pos c (name ++ cs)
      simp only [List.cons_append] at hB ⊢
      omega
    rw [List.cons_append]
    rw [identScanGo]
    simp only [hlt, if_true, hc.1, if_true]
    have := ih cs (i + 1) B (fun d hd => hn d (by simp [hd])) hh
      (by simp only [List.cons_append, byteLen_cons] at hB ⊢; omega)
    rw [this]
    simp only [List.length_cons]
    congr 1
    omega

theorem identScanGo_some : ∀ (cs : List Char) (B i j : Nat),
    identScanGo B cs i = some j →
    i ≤ j ∧ ∀ m, m < j - i → ∃ c, cs.get? m = some c ∧ rustIsAlphabetic c = true := by
  intro cs
  induction cs with
  | nil =>
    intro B i j h
    rw [identScanGo] at h
    by_cases hi : i < B
    · simp [hi] at h
    · simp only [hi, if_false, Option.some.injEq] at h
      subst h
      exact ⟨le_refl i, fun m hm => absurd hm (by omega)⟩
  | cons c cs ih =>
    intro B i j h
    rw [identScanGo] at h
    by_cases hi : i < B
    · simp only [hi, if_true] at h
      by_cases hc : rustIsAlphabetic c
      · rw [if_pos hc] at h
        obtain ⟨h1, h2⟩ := ih B (i + 1) j h
        refine ⟨by omega, fun m hm => ?_⟩
        cases m with
        | zero => exact ⟨c, rfl, hc⟩
        | succ m =>
          obtain ⟨d, hd, hda⟩ := h2 m (by omega)
          exact ⟨d, by simpa using hd, hda⟩
      · rw [if_neg hc] at h
        obtain rfl : i = j := by simpa using h
        exact ⟨le_refl i, fun m hm => absurd hm (by omega)⟩
    · simp only [hi, if_false, Option.some.injEq] at h
      subst h
      exact ⟨le_refl i, fun m hm => absurd hm (by omega)⟩

theorem identScan_not_alpha {c : Char} (cs : List Char)
    (hc : rustIsAlphabetic c = false) : identScan (c :: cs) = some 0 := by
  rw [identScan, identScanGo]
  simp [byteLen_cons_pos c cs, hc]

theorem identScan_head_alpha_pos {c : Char} {cs : List Char} {i : Nat}
    (h : identScan (c :: cs) = some i) (hc : rustIsAlphabetic c = true) : 1 ≤ i := by
  rw [identScan, identScanGo] at h
  simp only [byteLen_cons_pos c cs, if_true, hc] at h
  exact (identScanGo_some cs _ 1 i h).1

theorem identScan_alpha_prefix {cs : List Char} {i : Nat}
    (h : identScan cs = some i) :
    ∀ m, m < i → ∃ c, cs.get? m = some c ∧ rustIsAlphabetic c = true := by
  have := identScanGo_some cs (byteLen cs) 0 i h
  intro m hm
  exact this.2 m (by omega)

/-! ## Tokenizer loop: fuel irrelevance and step lemmas -/

theorem tokenizeLoop_congr : ∀ (n : Nat) (cs : List Char) (pos : Nat) (acc : List Token)
    (f g : Nat), cs.length ≤ n → cs.length < f → cs.length < g →
    tokenizeLoop f cs pos acc = tokenizeLoop g cs pos acc := by
  intro n
  induction n with
  | zero =>
    intro cs pos acc f g hn hf hg
    obtain ⟨f, rfl⟩ : ∃ f2, f = f2 + 1 := ⟨f - 1, by omega⟩
    obtain ⟨g, rfl⟩ : ∃ g2, g = g2 + 1 := ⟨g - 1, by omega⟩
    have : cs = [] := List.length_eq_zero.mp (by omega)
    subst this
    rfl
  | succ m ih =>
    intro cs pos acc f g hn hf hg
    obtain ⟨f, rfl⟩ : ∃ f2, f = f2 + 1 := ⟨f - 1, by omega⟩
    obtain ⟨g, rfl⟩ : ∃ g2, g = g2 + 1 := ⟨g - 1, by omega⟩
    cases cs with
    | nil => rfl
    | cons c cs =>
      have hlen : cs.length ≤ m ∧ cs.length < f ∧ cs.length < g := by
        simp only [List.length_cons] at hn hf hg
        omega
      rw [tokenizeLoop]
      conv_rhs => rw [tokenizeLoop]
      by_cases hws : c = ' ' ∨ c = '\t'
      · simp only [hws, if_true]
        exact ih cs (pos + 1) acc f g hlen.1 hlen.2.1 hlen.2.2
      · simp only [hws, if_false]
        cases hscan : identScan (c :: cs) with
        | none => rfl
        | some i =>
          by_cases hi : 0 < i
          · simp only [hi, if_true]
            cases htk : takeBytes (c :: cs) i with
            | none => rfl
            | some name =>
              cases hdr : dropBytes (c :: cs) i with
              | none => rfl
              | some rest2 =>
                have hlt : rest2.length < (c :: cs).length := dropBytes_length_lt hdr hi
                simp only [List.length_cons] at hlt
                exact ih rest2 _ _ f g (by omega) (by omega) (by omega)
          · simp only [hi, if_false]
            by_cases harrow : c = '=' ∧ cs.head? = some '>'
            · simp only [harrow, if_true]
              have : cs.tail.length ≤ cs.length := by
                cases cs <;> simp
              exact ih cs.tail _ _ f g (by omega) (by omega) (by omega)
            · simp only [harrow, if_false]
              have step : ∀ acc2, tokenizeLoop f cs (pos + 1) acc2
                  = tokenizeLoop g cs (pos + 1) acc2 :=
                fun acc2 => ih cs _ acc2 f g hlen.1 hlen.2.1 hlen.2.2
              by_cases h0 : c = '0'
              · simp only [h0, if_true]; exact step _
              · simp only [h0, if_false]
                by_cases h1 : c = '1'
                · simp only [h1, if_true]; exact step _
                · simp only [h1, if_false]
                  by_cases h2 : c = '&'
                  · simp only [h2, if_true]; exact step _
                  · simp only [h2, if_false]
                    by_cases h3 : c = '|'
                    · simp only [h3, if_true]; exact step _
                    · simp only [h3, if_false]
                      by_cases h4 : c = '^'
                      · simp only [h4, if_true]; exact step _
                      · simp only [h4, if_false]
                        by_cases h5 : c = '='
                        · simp only [h5, if_true]; exact step _
                        · simp only [h5, if_false]
                          by_cases h6 : c = '!'
                          · simp only [h6, if_true]; exact step _
                          · simp only [h6, if_false]
                            by_cases h7 : c = '('
                            · simp only [h7, if_true]; exact step _
                            · simp only [h7, if_false]
                              by_cases h8 : c = ')'
                              · simp only [h8, if_true]; exact step _
                              · simp only [h8, if_false]

theorem tokenizeLoop_eq_run (f : Nat) (cs : List Char) (pos : Nat) (acc : List Token)
    (hf : cs.length < f) : tokenizeLoop f cs pos acc = tokenizeRun cs pos acc :=
  tokenizeLoop_congr cs.length cs pos acc f (cs.length + 1) (le_refl _) hf (by omega)

theorem string_mk_data (s : String) : String.mk s.data = s := rfl

theorem headNotAlpha_nil : headNotAlpha [] := by
  intro c hc
  simp at hc

theorem headNotAlpha_cons {c : Char} (cs : List Char) (hc : rustIsAlphabetic c = false) :
    headNotAlpha (c :: cs) := by
  intro d hd
  simp only [List.head?_cons, Option.some.injEq] at hd
  rw [← hd]
  exact hc

theorem tokenizeRun_ws (c : Char) (cs : List Char) (pos : Nat) (acc : List Token)
    (hws : c = ' ' ∨ c = '\t') :
    tokenizeRun (c :: cs) pos acc = tokenizeRun cs (pos + 1) acc := by
  rw [tokenizeRun]
  simp only [List.length_cons]
  rw [tokenizeLoop]
  simp only [hws, if_true]
  rfl

theorem tokenizeRun_single (c : Char) (k : TokenKind) (cs : List Char) (pos : Nat)
    (acc : List Token)
    (hws : ¬(c = ' ' ∨ c = '\t'))
    (halpha : rustIsAlphabetic c = false)
    (harrow : ¬(c = '=' ∧ cs.head? = some '>'))
    (hk : (if c = '0' then some (TokenKind.Value false)
      else if c = '1' then some (TokenKind.Value true)
      else if c = '&' then some (TokenKind.Operator "&")
      else if c = '|' then some (TokenKind.Operator "|")
      else if c = '^' then some (TokenKind.Operator "^")
      else if c = '=' then some (TokenKind.Operator "=")
      else if c = '!' then some (TokenKind.Operator "!")
      else if c = '(' then some TokenKind.OpenParanthesis
      else if c = ')' then some TokenKind.CloseParanthesis
      else none) = some k) :
    tokenizeRun (c :: cs) pos acc = tokenizeRun cs (pos + 1) (acc ++ [⟨pos, k⟩]) := by
  rw [tokenizeRun]
  simp only [List.length_cons]
  rw [tokenizeLoop]
  simp only [hws, if_false]
  rw [identScan_not_alpha cs halpha]
  simp only [Nat.lt_irrefl, if_false, harrow]
  by_cases h0 : c = '0'
  · rw [if_pos h0] at hk
    simp only [if_pos h0, Option.some.injEq] at hk ⊢
    rw [← hk]; rfl
  rw [if_neg h0] at hk
  rw [if_neg h0]
  by_cases h1 : c = '1'
  · rw [if_pos h1] at hk
    simp only [if_pos h1, Option.some.injEq] at hk ⊢
    rw [← hk]; rfl
  rw [if_neg h1] at hk
  rw [if_neg h1]
  by_cases h2 : c = '&'
  · rw [if_pos h2] at hk
    simp only [if_pos h2, Option.some.injEq] at hk ⊢
    rw [← hk]; rfl
  rw [if_neg h2] at hk
  rw [if_neg h2]
  by_cases h3 : c = '|'
  · rw [if_pos h3] at hk
    simp only [if_pos h3, Option.some.injEq] at hk ⊢
    rw [← hk]; rfl
  rw [if_neg h3] at hk
  rw [if_neg h3]
  by_cases h4 : c = '^'
  · rw [if_pos h4] at hk
    simp only [if_pos h4, Option.some.injEq] at hk ⊢
    rw [← hk]; rfl
  rw [if_neg h4] at hk
  rw [if_neg h4]
  by_cases h5 : c = '='
  · rw [if_pos h5] at hk
    simp only [if_pos h5, Option.some.injEq] at hk ⊢
    rw [← hk]; rfl
  rw [if_neg h5] at hk
  rw [if_neg h5]
  by_cases h6 : c = '!'
  · rw [if_pos h6] at hk
    simp only [if_pos h6, Option.some.injEq] at hk ⊢
    rw [← hk]; rfl
  rw [if_neg h6] at hk
  rw [if_neg h6]
  by_cases h7 : c = '('
  · rw [if_pos h7] at hk
    simp only [if_pos h7, Option.some.injEq] at hk ⊢
    rw [← hk]; rfl
  rw [if_neg h7] at hk
  rw [if_neg h7]
  by_cases h8 : c = ')'
  · rw [if_pos h8] at hk
    simp only [if_pos h8, Option.some.injEq] at hk ⊢
    rw [← hk]; rfl
  rw [if_neg h8] at hk
  exact absurd hk (by simp)

theorem tokenizeRun_arrow (cs : List Char) (pos : Nat) (acc : List Token) :
    tokenizeRun ('=' :: '>' :: cs) pos acc
      = tokenizeRun cs (pos + 2) (acc ++ [⟨pos, .Operator "=>"⟩]) := by
  rw [tokenizeRun]
  simp only [List.length_cons]
  rw [tokenizeLoop]
  rw [identScan_not_alpha ('>' :: cs) (by decide)]
  simp only [show ¬(('=' : Char) = ' ' ∨ ('=' : Char) = '\t') by decide, if_false,
    Nat.lt_irrefl,
    show (('=' : Char) = '=' ∧ ('>' :: cs).head? = some '>') by simp, if_true,
    List.tail_cons]
  exact tokenizeLoop_eq_run _ cs (pos + 2) _ (by omega)

theorem tokenizeRun_name (name cs : List Char) (pos : Nat) (acc : List Token)
    (hn : goodNameChars name) (hh : headNotAlpha cs) :
    tokenizeRun (name ++ cs) pos acc
      = tokenizeRun cs (pos + name.length) (acc ++ [⟨pos, .Variable (String.mk name)⟩]) := by
  obtain ⟨hne, hchars⟩ := hn
  cases name with
  | nil => exact absurd rfl hne
  | cons c name =>
    have hca := hchars c (by simp)
    have hscan0 := identScanGo_ascii (c :: name) cs 0 (byteLen ((c :: name) ++ cs))
      hchars hh (by omega)
    have hscan : identScan (c :: (name ++ cs)) = some (name.length + 1) := by
      simpa [identScan] using hscan0
    have hwsf : ¬(c = ' ' ∨ c = '\t') := by
      intro h
      rcases h with h | h <;> rw [h] at hca <;> exact absurd hca.1 (by decide)
    have hbl : byteLen (c :: name) = name.length + 1 := by
      have := byteLen_of_ascii (c :: name) (fun d hd => (hchars d hd).2)
      simpa using this
    rw [show (c :: name) ++ cs = c :: (name ++ cs) from rfl]
    rw [tokenizeRun]
    simp only [List.length_cons]
    rw [tokenizeLoop]
    rw [hscan]
    simp only [hwsf, if_false, show (0:Nat) < name.length + 1 from by omega, if_true]
    rw [show c :: (name ++ cs) = (c :: name) ++ cs from rfl,
        show name.length + 1 = byteLen (c :: name) from hbl.symm,
        takeBytes_append_self, dropBytes_append_self]
    exact tokenizeLoop_eq_run _ cs _ _ (by simp only [List.length_append]; omega)

/-- Printing a tree and then running the tokenizer over the printed text
consumes exactly the printed characters, appending tokens whose kinds are
`printKinds` of the tree, for any continuation text that does not start
with a letter. -/
theorem tokenizeRun_print : ∀ (e : Expr) (cs : List Char) (pos : Nat) (acc : List Token),
    goodNames e → headNotAlpha cs →
    ∃ ts pos2, tokenizeRun ((to_string e).data ++ cs) pos acc
        = tokenizeRun cs pos2 (acc ++ ts) ∧ ts.map Token.kind = printKinds e := by
  intro e
  induction e with
  | Value value =>
    intro cs pos acc hg hh
    refine ⟨[⟨pos, .Value value⟩], pos + 1, ?_, by simp [printKinds]⟩
    cases value
    · exact tokenizeRun_single '0' (.Value false) cs pos acc (by decide) (by decide)
        (fun h => absurd h.1 (by decide)) (by decide)
    · exact tokenizeRun_single '1' (.Value true) cs pos acc (by decide) (by decide)
        (fun h => absurd h.1 (by decide)) (by decide)
  | Variable name =>
    intro cs pos acc hg hh
    have hgn : goodName name := hg name (by simp [varsOf])
    refine ⟨[⟨pos, .Variable name⟩], pos + name.data.length, ?_, by simp [printKinds]⟩
    have := tokenizeRun_name name.data cs pos acc hgn hh
    rw [string_mk_data] at this
    exact this
  | UnaryExpression op arg ih =>
    intro cs pos acc hg hh
    cases op
    have hga : goodNames arg := fun n hn => hg n (by simpa [varsOf] using hn)
    by_cases hp : 3 < precedence arg
    · obtain ⟨ts, pos2, hrun, hts⟩ := ih cs (pos + 1) (acc ++ [⟨pos, .Operator "!"⟩]) hga hh
      refine ⟨⟨pos, .Operator "!"⟩ :: ts, pos2, ?_, ?_⟩
      · rw [to_string]
        simp only [hp, if_true, String.data_append, List.append_assoc, List.cons_append,
          List.nil_append]
        rw [tokenizeRun_single '!' (.Operator "!") _ pos acc (by decide) (by decide)
            (fun h => absurd h.1 (by decide)) (by decide)]
        rw [hrun]
        simp
      · simp only [printKinds, hp, if_true, List.map_cons, hts]
    · obtain ⟨ts, pos2, hrun, hts⟩ := ih (')' :: cs) (pos + 1 + 1)
        ((acc ++ [⟨pos, .Operator "!"⟩]) ++ [⟨pos + 1, .OpenParanthesis⟩]) hga
        (headNotAlpha_cons cs (by decide))
      refine ⟨⟨pos, .Operator "!"⟩ :: ⟨pos + 1, .OpenParanthesis⟩
          :: (ts ++ [⟨pos2, .CloseParanthesis⟩]), pos2 + 1, ?_, ?_⟩
      · rw [to_string]
        simp only [hp, if_false, String.data_append, List.append_assoc, List.cons_append,
          List.nil_append]
        rw [tokenizeRun_single '!' (.Operator "!") _ pos acc (by decide) (by decide)
            (fun h => absurd h.1 (by decide)) (by decide)]
        rw [tokenizeRun_single '(' .OpenParanthesis _ (pos + 1) _ (by decide) (by decide)
            (fun h => absurd h.1 (by decide)) (by decide)]
        rw [hrun]
        rw [tokenizeRun_single ')' .CloseParanthesis cs pos2 _ (by decide) (by decide)
            (fun h => absurd h.1 (by decide)) (by decide)]
        simp
      · simp only [printKinds, hp, if_false, List.map_cons, List.map_append, hts]
        simp
  | BinaryExpression op left right ihl ihr =>
    intro cs pos acc hg hh
    have hgl : goodNames left := fun n hn => hg n (by simp [varsOf, hn])
    have hgr : goodNames right := fun n hn => hg n (by simp [varsOf, hn])
    -- the text after the left operand: space, operator symbol, space, right operand
    have main : ∀ (accL : List Token) (posL : Nat),
        ∃ ts pos2,
          tokenizeRun (' ' :: ((opSymbol op).data ++ ' '
              :: ((if binPrecedence op < precedence right then to_string right
                  else "(" ++ to_string right ++ ")").data ++ cs))) posL accL
            = tokenizeRun cs pos2 (accL ++ ts)
          ∧ ts.map Token.kind
            = TokenKind.Operator (opSymbol op) ::
              (if binPrecedence op < precedence right then printKinds right
               else TokenKind.OpenParanthesis ::
                 (printKinds right ++ [TokenKind.CloseParanthesis])) := by
      intro accL posL
      have rightStep : ∀ (accR : List Token) (posR : Nat),
          ∃ ts pos2,
            tokenizeRun ((if binPrecedence op < precedence right then to_string right
                else "(" ++ to_string right ++ ")").data ++ cs) posR accR
              = tokenizeRun cs pos2 (accR ++ ts)
            ∧ ts.map Token.kind
              = (if binPrecedence op < precedence right then printKinds right
                 else TokenKind.OpenParanthesis ::
                   (printKinds right ++ [TokenKind.CloseParanthesis])) := by
        intro accR posR
        by_cases hp : binPrecedence op < precedence right
        · obtain ⟨ts, pos2, hrun, hts⟩ := ihr cs posR accR hgr hh
          exact ⟨ts, pos2, by simpa [hp] using hrun, by simp [hp, hts]⟩
        · obtain ⟨ts, pos2, hrun, hts⟩ := ihr (')' :: cs) (posR + 1)
            (accR ++ [⟨posR, .OpenParanthesis⟩]) hgr (headNotAlpha_cons cs (by decide))
          refine ⟨⟨posR, .OpenParanthesis⟩ :: (ts ++ [⟨pos2, .CloseParanthesis⟩]), pos2 + 1,
            ?_, by simp [hp, hts]⟩
          simp only [hp, if_false, String.data_append, List.append_assoc, List.cons_append,
            List.nil_append]
          rw [tokenizeRun_single '(' .OpenParanthesis _ posR _ (by decide) (by decide)
              (fun h => absurd h.1 (by decide)) (by decide)]
          rw [hrun]
          rw [tokenizeRun_single ')' .CloseParanthesis cs pos2 _ (by decide) (by decide)
              (fun h => absurd h.1 (by decide)) (by decide)]
          simp
      cases op with
      | IMP =>
        obtain ⟨ts, pos2, hrun, hts⟩ := rightStep
          (accL ++ [⟨posL + 1, .Operator "=>"⟩]) (posL + 1 + 2 + 1)
        refine ⟨⟨posL + 1, .Operator "=>"⟩ :: ts, pos2, ?_, by simp [opSymbol, hts]⟩
        simp only [opSymbol, show ("=>" : String).data = ['=', '>'] from rfl,
          List.cons_append, List.nil_append]
        rw [tokenizeRun_ws ' ' _ posL accL (by decide)]
        rw [tokenizeRun_arrow _ (posL + 1) accL]
        rw [tokenizeRun_ws ' ' _ (posL + 1 + 2) _ (by decide)]
        rw [hrun]
        simp
      | OR =>
        obtain ⟨ts, pos2, hrun, hts⟩ := rightStep
          (accL ++ [⟨posL + 1, .Operator "|"⟩]) (posL + 1 + 1 + 1)
        refine ⟨⟨posL + 1, .Operator "|"⟩ :: ts, pos2, ?_, by simp [opSymbol, hts]⟩
        simp only [opSymbol, show ("|" : String).data = ['|'] from rfl,
          List.cons_append, List.nil_append]
        rw [tokenizeRun_ws ' ' _ posL accL (by decide)]
        rw [tokenizeRun_single '|' (.Operator "|") _ (posL + 1) accL (by decide) (by decide)
            (fun h => absurd h.1 (by decide)) (by decide)]
        rw [tokenizeRun_ws ' ' _ (posL + 1 + 1) _ (by decide)]
        rw [hrun]
        simp
      | XOR =>
        obtain ⟨ts, pos2, hrun, hts⟩ := rightStep
          (accL ++ [⟨posL + 1, .Operator "^"⟩]) (posL + 1 + 1 + 1)
        refine ⟨⟨posL + 1, .Operator "^"⟩ :: ts, pos2, ?_, by simp [opSymbol, hts]⟩
        simp only [opSymbol, show ("^" : String).data = ['^'] from rfl,
          List.cons_append, List.nil_append]
        rw [tokenizeRun_ws ' ' _ posL accL (by decide)]
        rw [tokenizeRun_single '^' (.Operator "^") _ (posL + 1) accL (by decide) (by decide)
            (fun h => absurd h.1 (by decide)) (by decide)]
        rw [tokenizeRun_ws ' ' _ (posL + 1 + 1) _ (by decide)]
        rw [hrun]
        simp
      | AND =>
        obtain ⟨ts, pos2, hrun, hts⟩ := rightStep
          (accL ++ [⟨posL + 1, .Operator "&"⟩]) (posL + 1 + 1 + 1)
        refine ⟨⟨posL + 1, .Operator "&"⟩ :: ts, pos2, ?_, by simp [opSymbol, hts]⟩
        simp only [opSymbol, show ("&" : String).data = ['&'] from rfl,
          List.cons_append, List.nil_append]
        rw [tokenizeRun_ws ' ' _ posL accL (by decide)]
        rw [tokenizeRun_single '&' (.Operator "&") _ (posL + 1) accL (by decide) (by decide)
            (fun h => absurd h.1 (by decide)) (by decide)]
        rw [tokenizeRun_ws ' ' _ (posL + 1 + 1) _ (by decide)]
        rw [hrun]
        simp
      | EQ =>
        obtain ⟨ts, pos2, hrun, hts⟩ := rightStep
          (accL ++ [⟨posL + 1, .Operator "="⟩]) (posL + 1 + 1 + 1)
        refine ⟨⟨posL + 1, .Operator "="⟩ :: ts, pos2, ?_, by simp [opSymbol, hts]⟩
        simp only [opSymbol, show ("=" : String).data = ['='] from rfl,
          List.cons_append, List.nil_append]
        rw [tokenizeRun_ws ' ' _ posL accL (by decide)]
        rw [tokenizeRun_single '=' (.Operator "=") _ (posL + 1) accL (by decide) (by decide)
            (fun h => absurd h.2 (by simp)) (by decide)]
        rw [tokenizeRun_ws ' ' _ (posL + 1 + 1) _ (by decide)]
        rw [hrun]
        simp
    have hhl : headNotAlpha (' ' :: ((opSymbol op).data ++ ' '
        :: ((if binPrecedence op < precedence right then to_string right
            else "(" ++ to_string right ++ ")").data ++ cs))) :=
      headNotAlpha_cons _ (by decide)
    by_cases hp : binPrecedence op < precedence left
    · obtain ⟨tsL, posL, hrunL, htsL⟩ := ihl
        (' ' :: ((opSymbol op).data ++ ' '
          :: ((if binPrecedence op < precedence right then to_string right
              else "(" ++ to_string right ++ ")").data ++ cs))) pos acc hgl hhl
      obtain ⟨tsR, pos2, hrunR, htsR⟩ := main (acc ++ tsL) posL
      refine ⟨tsL ++ tsR, pos2, ?_, ?_⟩
      · rw [to_string]
        simp only [hp, if_true, String.data_append, List.append_assoc, List.cons_append,
          List.nil_append, show (" " : String).data = [' '] from rfl]
        rw [hrunL, hrunR]
        simp
      · simp [printKinds, hp, htsL, htsR]
    · obtain ⟨tsL, posL, hrunL, htsL⟩ := ihl
        (')' :: ' ' :: ((opSymbol op).data ++ ' '
          :: ((if binPrecedence op < precedence right then to_string right
              else "(" ++ to_string right ++ ")").data ++ cs))) (pos + 1)
        (acc ++ [⟨pos, .OpenParanthesis⟩]) hgl (headNotAlpha_cons _ (by decide))
      obtain ⟨tsR, pos2, hrunR, htsR⟩ := main
        (((acc ++ [⟨pos, .OpenParanthesis⟩]) ++ tsL) ++ [⟨posL, .CloseParanthesis⟩]) (posL + 1)
      refine ⟨⟨pos, .OpenParanthesis⟩ :: (tsL ++ [⟨posL, .CloseParanthesis⟩]) ++ tsR, pos2,
        ?_, ?_⟩
      · rw [to_string]
        simp only [hp, if_false, String.data_append, List.append_assoc, List.cons_append,
          List.nil_append, show (" " : String).data = [' '] from rfl,
          show ("(" : String).data = ['('] from rfl, show (")" : String).data = [')'] from rfl]
        rw [tokenizeRun_single '(' .OpenParanthesis _ pos acc (by decide) (by decide)
            (fun h => absurd h.1 (by decide)) (by decide)]
        rw [hrunL]
        rw [tokenizeRun_single ')' .CloseParanthesis _ posL _ (by decide) (by decide)
            (fun h => absurd h.1 (by decide)) (by decide)]
        rw [hrunR]
        simp
      · simp only [printKinds, hp, if_false, List.map_cons, List.map_append, htsL, htsR]
        simp

/-! ## Depth sums and scan predicates -/

theorem depthSum_nil : depthSum [] = 0 := rfl

theorem depthSum_cons (k : TokenKind) (ks : List TokenKind) :
    depthSum (k :: ks) = kdepth k + depthSum ks := by
  simp [depthSum]

theorem depthSum_append (xs ys : List TokenKind) :
    depthSum (xs ++ ys) = depthSum xs + depthSum ys := by
  simp [depthSum]

theorem opsMin_append : ∀ {xs ys : List TokenKind} {pl : Int} {q : Nat},
    opsMin xs pl q → opsMin ys (pl + depthSum xs) q → opsMin (xs ++ ys) pl q := by
  intro xs
  induction xs with
  | nil =>
    intro ys pl q _ h2
    simpa [depthSum] using h2
  | cons k xs ih =>
    intro ys pl q h1 h2
    refine ⟨h1.1, ih h1.2 ?_⟩
    rw [depthSum_cons] at h2
    rw [show pl + kdepth k + depthSum xs = pl + (kdepth k + depthSum xs) by omega]
    exact h2

theorem opsMin_mono : ∀ {xs : List TokenKind} {pl : Int} {q q' : Nat},
    q' ≤ q → opsMin xs pl q → opsMin xs pl q' := by
  intro xs
  induction xs with
  | nil => intro pl q q' _ _; trivial
  | cons k xs ih =>
    intro pl q q' hq h
    exact ⟨fun nm hk hpl => le_trans hq (h.1 nm hk hpl), ih hq h.2⟩

theorem opsMin_of_pos : ∀ {xs : List TokenKind} {pl : Int} {q : Nat},
    (∀ n, n < xs.length → 0 < pl + depthSum (xs.take n)) → opsMin xs pl q := by
  intro xs
  induction xs with
  | nil => intro pl q _; trivial
  | cons k xs ih =>
    intro pl q h
    refine ⟨fun nm hk hpl => ?_, ih fun n hn => ?_⟩
    · have := h 0 (by simp)
      simp [depthSum] at this
      omega
    · have := h (n + 1) (by simp; omega)
      simp only [List.take_succ_cons, depthSum_cons] at this
      omega

theorem opsOff_of : ∀ {xs : List TokenKind} {pl : Int},
    (∀ n nm, xs.get? n = some (TokenKind.Operator nm) → pl + depthSum (xs.take n) ≠ 0) →
    opsOff xs pl := by
  intro xs
  induction xs with
  | nil => intro pl _; trivial
  | cons k xs ih =>
    intro pl h
    refine ⟨fun nm hk => ?_, ih fun n nm hn => ?_⟩
    · have := h 0 nm (by simp [hk])
      simpa [depthSum] using this
    · have := h (n + 1) nm (by simpa using hn)
      simp only [List.take_succ_cons, depthSum_cons] at this
      omega

theorem opsOff_of_pos : ∀ {xs : List TokenKind} {pl : Int},
    (∀ n, n < xs.length → 0 < pl + depthSum (xs.take n)) → opsOff xs pl := by
  intro xs pl h
  refine opsOff_of fun n nm hn => ?_
  have hlt : n < xs.length := by
    by_contra hge
    rw [List.get?_eq_none.mpr (by omega)] at hn
    exact absurd hn (by simp)
  have := h n hlt
  omega

/-! ## The precedence scan -/

theorem findGo_append : ∀ (xs ys : List Token) (i : Nat) (pl : Int)
    (res : Option (Nat × Token)),
    findGo (xs ++ ys) i pl res
      = findGo ys (i + xs.length) (pl + depthSum (xs.map Token.kind)) (findGo xs i pl res) := by
  intro xs
  induction xs with
  | nil =>
    intro ys i pl res
    simp [findGo, depthSum]
  | cons t xs ih =>
    intro ys i pl res
    obtain ⟨p, k⟩ := t
    cases k with
    | Operator nm =>
      simp only [List.cons_append, findGo, List.append_eq, List.map_cons, depthSum_cons,
        kdepth, List.length_cons]
      rw [ih]
      congr 1 <;> omega
    | OpenParanthesis =>
      simp only [List.cons_append, findGo, List.append_eq, List.map_cons, depthSum_cons,
        kdepth, List.length_cons]
      rw [ih]
      congr 1 <;> omega
    | CloseParanthesis =>
      simp only [List.cons_append, findGo, List.append_eq, List.map_cons, depthSum_cons,
        kdepth, List.length_cons]
      rw [ih]
      congr 1 <;> omega
    | Value v =>
      simp only [List.cons_append, findGo, List.append_eq, List.map_cons, depthSum_cons,
        kdepth, List.length_cons]
      rw [ih]
      congr 1 <;> omega
    | Variable nm =>
      simp only [List.cons_append, findGo, List.append_eq, List.map_cons, depthSum_cons,
        kdepth, List.length_cons]
      rw [ih]
      congr 1 <;> omega

theorem findGo_opsOff : ∀ (xs : List Token) (i : Nat) (pl : Int) (res : Option (Nat × Token)),
    opsOff (xs.map Token.kind) pl → findGo xs i pl res = res := by
  intro xs
  induction xs with
  | nil => intro i pl res _; rfl
  | cons t xs ih =>
    intro i pl res h
    obtain ⟨p, k⟩ := t
    rw [List.map_cons] at h
    cases k with
    | Operator nm =>
      have hpl : pl ≠ 0 := h.1 nm rfl
      have htail : opsOff (List.map Token.kind xs) pl := by
        have := h.2
        simpa [kdepth] using this
      simp only [findGo]
      rw [if_neg hpl]
      exact ih (i + 1) pl res htail
    | OpenParanthesis =>
      simp only [findGo]
      exact ih (i + 1) (pl + 1) res (by simpa [kdepth] using h.2)
    | CloseParanthesis =>
      simp only [findGo]
      exact ih (i + 1) (pl - 1) res (by simpa [kdepth, Int.sub_eq_add_neg] using h.2)
    | Value v =>
      simp only [findGo]
      exact ih (i + 1) pl res (by simpa [kdepth] using h.2)
    | Variable nm =>
      simp only [findGo]
      exact ih (i + 1) pl res (by simpa [kdepth] using h.2)

theorem findGo_resMin : ∀ (xs : List Token) (i : Nat) (pl : Int) (res : Option (Nat × Token))
    (q : Nat), opsMin (xs.map Token.kind) pl q → resMin q res → resMin q (findGo xs i pl res) := by
  intro xs
  induction xs with
  | nil => intro i pl res q _ hr; exact hr
  | cons t xs ih =>
    intro i pl res q h hr
    obtain ⟨p, k⟩ := t
    rw [List.map_cons] at h
    cases k with
    | Operator nm =>
      have htail : opsMin (xs.map Token.kind) pl q := by
        have := h.2
        simpa [kdepth] using this
      by_cases hpl : pl = 0
      · subst hpl
        have hq : q ≤ get_precedence nm := h.1 nm rfl rfl
        simp only [findGo]
        refine ih (i + 1) 0 _ q htail ?_
        rw [if_pos trivial]
        by_cases hh : has_higher_precedence res ⟨p, .Operator nm⟩ = true
        · rw [if_pos hh]
          exact Or.inr ⟨i, ⟨p, .Operator nm⟩, nm, rfl, rfl, hq⟩
        · rw [if_neg hh]
          exact hr
      · simp only [findGo]
        rw [if_neg hpl]
        exact ih (i + 1) pl res q htail hr
    | OpenParanthesis =>
      simp only [findGo]
      exact ih (i + 1) (pl + 1) res q (by simpa [kdepth] using h.2) hr
    | CloseParanthesis =>
      simp only [findGo]
      exact ih (i + 1) (pl - 1) res q (by simpa [kdepth, Int.sub_eq_add_neg] using h.2) hr
    | Value v =>
      simp only [findGo]
      exact ih (i + 1) pl res q (by simpa [kdepth] using h.2) hr
    | Variable nm =>
      simp only [findGo]
      exact ih (i + 1) pl res q (by simpa [kdepth] using h.2) hr

theorem findGo_keep : ∀ (xs : List Token) (i j : Nat) (pl : Int) (t : Token) (nm : String),
    t.kind = TokenKind.Operator nm → opsMin (xs.map Token.kind) pl (get_precedence nm) →
    findGo xs i pl (some (j, t)) = some (j, t) := by
  intro xs
  induction xs with
  | nil => intro i j pl t nm _ _; rfl
  | cons u xs ih =>
    intro i j pl t nm ht h
    obtain ⟨p, k⟩ := u
    rw [List.map_cons] at h
    cases k with
    | Operator nm2 =>
      have htail : opsMin (xs.map Token.kind) pl (get_precedence nm) := by
        have := h.2
        simpa [kdepth] using this
      by_cases hpl : pl = 0
      · subst hpl
        have hle : get_precedence nm ≤ get_precedence nm2 := h.1 nm2 rfl rfl
        have hh : has_higher_precedence (some (j, t)) ⟨p, .Operator nm2⟩ = false := by
          simp only [has_higher_precedence, ht]
          simp only [decide_eq_false_iff_not]
          omega
        simp only [findGo]
        rw [if_pos trivial, hh]
        simp only [Bool.false_eq_true, if_false]
        exact ih (i + 1) j 0 t nm ht htail
      · simp only [findGo]
        rw [if_neg hpl]
        exact ih (i + 1) j pl t nm ht htail
    | OpenParanthesis =>
      simp only [findGo]
      exact ih (i + 1) j (pl + 1) t nm ht (by simpa [kdepth] using h.2)
    | CloseParanthesis =>
      simp only [findGo]
      exact ih (i + 1) j (pl - 1) t nm ht (by simpa [kdepth, Int.sub_eq_add_neg] using h.2)
    | Value v =>
      simp only [findGo]
      exact ih (i + 1) j pl t nm ht (by simpa [kdepth] using h.2)
    | Variable nm3 =>
      simp only [findGo]
      exact ih (i + 1) j pl t nm ht (by simpa [kdepth] using h.2)

theorem findGo_some : ∀ (xs : List Token) (i : Nat) (pl : Int) (res : Option (Nat × Token))
    (j : Nat) (t : Token), findGo xs i pl res = some (j, t) →
    res = some (j, t) ∨ (i ≤ j ∧ j - i < xs.length ∧ xs.get? (j - i) = some t
      ∧ ∃ nm, t.kind = TokenKind.Operator nm) := by
  intro xs
  induction xs with
  | nil => intro i pl res j t h; exact Or.inl h
  | cons u xs ih =>
    intro i pl res j t h
    obtain ⟨p, k⟩ := u
    have lift : ∀ (res2 : Option (Nat × Token)), findGo xs (i + 1) pl res2 = some (j, t) →
        (∀ hres : res2 = some (j, t), res2 = some (j, t) → True) →
        res2 = some (j, t) ∨ (i ≤ j ∧ j - i < (⟨p, k⟩ :: xs).length
          ∧ (⟨p, k⟩ :: xs).get? (j - i) = some t ∧ ∃ nm, t.kind = TokenKind.Operator nm) := by
      intro res2 h2 _
      rcases ih (i + 1) pl res2 j t h2 with hc | ⟨h1, h2b, h3, h4⟩
      · exact Or.inl hc
      · refine Or.inr ⟨by omega, by simp; omega, ?_, h4⟩
        have : j - i = (j - (i + 1)) + 1 := by omega
        rw [this]
        simpa using h3
    cases k with
    | Operator nm =>
      simp only [findGo] at h
      by_cases hpl : pl = 0
      · rw [if_pos hpl] at h
        by_cases hh : has_higher_precedence res ⟨p, .Operator nm⟩
        · rw [if_pos hh] at h
          rcases lift _ h (fun _ _ => trivial) with hc | hr
          · -- the candidate placed here survived the rest of the scan
            simp only [Option.some.injEq, Prod.mk.injEq] at hc
            refine Or.inr ⟨by omega, by simp [← hc.1], ?_, ?_⟩
            · rw [show j - i = 0 from by omega]
              simp [hc.2]
            · exact ⟨nm, by rw [← hc.2]⟩
          · exact Or.inr hr
        · rw [if_neg hh] at h
          rcases lift _ h (fun _ _ => trivial) with hc | hr
          · exact Or.inl hc
          · exact Or.inr hr
      · rw [if_neg hpl] at h
        rcases lift _ h (fun _ _ => trivial) with hc | hr
        · exact Or.inl hc
        · exact Or.inr hr
    | OpenParanthesis =>
      simp only [findGo] at h
      rcases ih (i + 1) (pl + 1) res j t h with hc | ⟨h1, h2b, h3, h4⟩
      · exact Or.inl hc
      · refine Or.inr ⟨by omega, by simp; omega, ?_, h4⟩
        rw [show j - i = (j - (i + 1)) + 1 from by omega]
        simpa using h3
    | CloseParanthesis =>
      simp only [findGo] at h
      rcases ih (i + 1) (pl - 1) res j t h with hc | ⟨h1, h2b, h3, h4⟩
      · exact Or.inl hc
      · refine Or.inr ⟨by omega, by simp; omega, ?_, h4⟩
        rw [show j - i = (j - (i + 1)) + 1 from by omega]
        simpa using h3
    | Value v =>
      simp only [findGo] at h
      rcases ih (i + 1) pl res j t h with hc | ⟨h1, h2b, h3, h4⟩
      · exact Or.inl hc
      · refine Or.inr ⟨by omega, by simp; omega, ?_, h4⟩
        rw [show j - i = (j - (i + 1)) + 1 from by omega]
        simpa using h3
    | Variable nm =>
      simp only [findGo] at h
      rcases ih (i + 1) pl res j t h with hc | ⟨h1, h2b, h3, h4⟩
      · exact Or.inl hc
      · refine Or.inr ⟨by omega, by simp; omega, ?_, h4⟩
        rw [show j - i = (j - (i + 1)) + 1 from by omega]
        simpa using h3

theorem find_top_level_operator_some {ts : List Token} {pos : Nat}
    (h : find_top_level_operator ts = some pos) :
    pos < ts.length ∧ ∃ t nm, ts.get? pos = some t ∧ t.kind = TokenKind.Operator nm := by
  rw [find_top_level_operator] at h
  cases hf : findGo ts 0 0 none with
  | none => rw [hf] at h; exact absurd h (by simp)
  | some r =>
    rw [hf] at h
    obtain ⟨j, t⟩ := r
    simp only [Option.map_some', Option.some.injEq] at h
    subst h
    rcases findGo_some ts 0 0 none j t hf with hc | ⟨_, h2, h3, nm, h4⟩
    · exact absurd hc (by simp)
    · simp only [Nat.sub_zero] at h2 h3
      exact ⟨h2, t, nm, h3, h4⟩

/-! ## The parenthesis scan -/

theorem paren_scan_nonneg : ∀ (xs : List Token) (pl : Int),
    (∀ n, 0 ≤ pl + depthSum ((xs.map Token.kind).take n)) →
    paren_scan xs pl = .ok (pl + depthSum (xs.map Token.kind)) := by
  intro xs
  induction xs with
  | nil =>
    intro pl _
    simp [paren_scan, depthSum]
  | cons t xs ih =>
    intro pl h
    obtain ⟨p, k⟩ := t
    cases k with
    | OpenParanthesis =>
      simp only [paren_scan, List.map_cons, depthSum_cons, kdepth]
      rw [ih (pl + 1) fun n => ?_]
      · congr 1; omega
      · have := h (n + 1)
        simp only [List.map_cons, List.take_succ_cons, depthSum_cons, kdepth] at this
        omega
    | CloseParanthesis =>
      have hge : ¬(pl - 1 < 0) := by
        have := h 1
        simp [depthSum, kdepth] at this
        omega
      simp only [paren_scan, hge, if_false]
      rw [ih (pl - 1) fun n => ?_]
      · congr 1
        simp only [List.map_cons, depthSum_cons, kdepth]
        omega
      · have := h (n + 1)
        simp only [List.map_cons, List.take_succ_cons, depthSum_cons, kdepth] at this
        omega
    | Operator nm =>
      simp only [paren_scan, List.map_cons, depthSum_cons, kdepth]
      rw [ih pl fun n => ?_]
      · congr 1; omega
      · have := h (n + 1)
        simp only [List.map_cons, List.take_succ_cons, depthSum_cons, kdepth] at this
        omega
    | Value v =>
      simp only [paren_scan, List.map_cons, depthSum_cons, kdepth]
      rw [ih pl fun n => ?_]
      · congr 1; omega
      · have := h (n + 1)
        simp only [List.map_cons, List.take_succ_cons, depthSum_cons, kdepth] at this
        omega
    | Variable nm =>
      simp only [paren_scan, List.map_cons, depthSum_cons, kdepth]
      rw [ih pl fun n => ?_]
      · congr 1; omega
      · have := h (n + 1)
        simp only [List.map_cons, List.take_succ_cons, depthSum_cons, kdepth] at this
        omega

theorem paren_scan_ok_val : ∀ (xs : List Token) (pl q : Int),
    paren_scan xs pl = .ok q → q = pl + depthSum (xs.map Token.kind) := by
  intro xs
  induction xs with
  | nil =>
    intro pl q h
    simp only [paren_scan, Except.ok.injEq] at h
    simp [depthSum, ← h]
  | cons t xs ih =>
    intro pl q h
    obtain ⟨p, k⟩ := t
    cases k with
    | OpenParanthesis =>
      simp only [paren_scan] at h
      have := ih (pl + 1) q h
      simp only [List.map_cons, depthSum_cons, kdepth]
      omega
    | CloseParanthesis =>
      simp only [paren_scan] at h
      by_cases hneg : pl - 1 < 0
      · rw [if_pos hneg] at h
        cases xs with
        | nil =>
          simp only [List.head?_nil] at h
          have := ih (pl - 1) q h
          simp only [List.map_cons, depthSum_cons, kdepth] at this ⊢
          omega
        | cons u xs =>
          simp only [List.head?_cons] at h
          exact absurd h (by simp)
      · rw [if_neg hneg] at h
        have := ih (pl - 1) q h
        simp only [List.map_cons, depthSum_cons, kdepth] at this ⊢
        omega
    | Operator nm =>
      simp only [paren_scan] at h
      have := ih pl q h
      simp only [List.map_cons, depthSum_cons, kdepth]
      omega
    | Value v =>
      simp only [paren_scan] at h
      have := ih pl q h
      simp only [List.map_cons, depthSum_cons, kdepth]
      omega
    | Variable nm =>
      simp only [paren_scan] at h
      have := ih pl q h
      simp only [List.map_cons, depthSum_cons, kdepth]
      omega

/-! ## Fuel irrelevance and unfolding for parse -/

theorem opExprG_congr (p q : List Token → Except ParseError Expr) (ts : List Token)
    (pos : Nat) (h : ∀ l : List Token, l.length < ts.length → p l = q l) :
    parse_operator_expressionG p ts pos = parse_operator_expressionG q ts pos := by
  simp only [parse_operator_expressionG]
  cases hget : ts.get? pos with
  | none => rfl
  | some token =>
    have hlen : 0 < ts.length := by
      rcases List.get?_eq_some.mp hget with ⟨hl, _⟩
      omega
    have hx : p (ts.take pos) = q (ts.take pos) := by
      refine h _ ?_
      rcases List.get?_eq_some.mp hget with ⟨hl, _⟩
      simp [List.length_take]
      omega
    have hy : p (ts.drop (pos + 1)) = q (ts.drop (pos + 1)) := by
      refine h _ ?_
      simp [List.length_drop]
      omega
    simp only [hx, hy]

theorem parenG_congr (p q : List Token → Except ParseError Expr) (ts : List Token)
    (h : ∀ l : List Token, l.length < ts.length → p l = q l) :
    parse_paranthesis_expressionG p ts = parse_paranthesis_expressionG q ts := by
  cases ts with
  | nil => rfl
  | cons t0 rest0 =>
    simp only [parse_paranthesis_expressionG]
    have hx : p ((t0 :: rest0).drop 1).dropLast = q ((t0 :: rest0).drop 1).dropLast := by
      refine h _ ?_
      simp [List.length_dropLast]
      omega
    simp only [hx]

theorem parseF_congr : ∀ (n : Nat) (ts : List Token) (f g : Nat),
    ts.length ≤ n → ts.length < f → ts.length < g → parseF f ts = parseF g ts := by
  intro n
  induction n with
  | zero =>
    intro ts f g hn hf hg
    obtain ⟨f, rfl⟩ : ∃ f2, f = f2 + 1 := ⟨f - 1, by omega⟩
    obtain ⟨g, rfl⟩ : ∃ g2, g = g2 + 1 := ⟨g - 1, by omega⟩
    have : ts = [] := List.length_eq_zero.mp (by omega)
    subst this
    rfl
  | succ m ih =>
    intro ts f g hn hf hg
    obtain ⟨f, rfl⟩ : ∃ f2, f = f2 + 1 := ⟨f - 1, by omega⟩
    obtain ⟨g, rfl⟩ : ∃ g2, g = g2 + 1 := ⟨g - 1, by omega⟩
    match ts with
    | [] => rfl
    | [t] => rfl
    | t1 :: t2 :: rest =>
      have hstep : ∀ l : List Token, l.length < (t1 :: t2 :: rest).length →
          parseF f l = parseF g l := by
        intro l hl
        simp only [List.length_cons] at hl hn hf hg
        exact ih l f g (by omega) (by omega) (by omega)
      show parseF (f + 1) (t1 :: t2 :: rest) = parseF (g + 1) (t1 :: t2 :: rest)
      rw [parseF, parseF]
      cases find_top_level_operator (t1 :: t2 :: rest) with
      | some pos => exact opExprG_congr (parseF f) (parseF g) _ pos hstep
      | none => exact parenG_congr (parseF f) (parseF g) _ hstep

theorem parseF_eq_parse (f : Nat) (ts : List Token) (hf : ts.length < f) :
    parseF f ts = parse ts :=
  parseF_congr ts.length ts f (ts.length + 1) le_rfl hf (by omega)

theorem parse_cons2 (t1 t2 : Token) (rest : List Token) :
    parse (t1 :: t2 :: rest) =
      match find_top_level_operator (t1 :: t2 :: rest) with
      | some pos =>
        parse_operator_expressionG (parseF (rest.length + 2)) (t1 :: t2 :: rest) pos
      | none => parse_paranthesis_expressionG (parseF (rest.length + 2)) (t1 :: t2 :: rest) :=
  rfl

theorem parse_eq_op {ts : List Token} {pos : Nat} (h2 : 2 ≤ ts.length)
    (hf : find_top_level_operator ts = some pos) :
    parse ts = parse_operator_expressionG parse ts pos := by
  match ts, h2 with
  | t1 :: t2 :: rest, _ =>
    rw [parse_cons2, hf]
    exact opExprG_congr _ parse _ pos fun l hl =>
      parseF_eq_parse _ l (by simp only [List.length_cons] at hl ⊢; omega)

theorem parse_eq_paren {ts : List Token} (h2 : 2 ≤ ts.length)
    (hf : find_top_level_operator ts = none) :
    parse ts = parse_paranthesis_expressionG parse ts := by
  match ts, h2 with
  | t1 :: t2 :: rest, _ =>
    rw [parse_cons2, hf]
    exact parenG_congr _ parse _ fun l hl =>
      parseF_eq_parse _ l (by simp only [List.length_cons] at hl ⊢; omega)

theorem parse_nil : parse [] = .error ⟨"Missing input", 0, 0⟩ := rfl

theorem parse_one (t : Token) : parse [t] = parse_single_token_expression t := rfl

/-! ## Shape of printed token lists -/

theorem get_precedence_opSymbol (op : BinaryOperator) :
    get_precedence (opSymbol op) = binPrecedence op := by
  cases op <;> rfl

theorem printKinds_unary (arg : Expr) :
    printKinds (.UnaryExpression .NEG arg) = TokenKind.Operator "!" :: wrapKinds 3 arg := rfl

theorem printKinds_bin (op : BinaryOperator) (l r : Expr) :
    printKinds (.BinaryExpression op l r)
      = wrapKinds (binPrecedence op) l
        ++ TokenKind.Operator (opSymbol op) :: wrapKinds (binPrecedence op) r := rfl

theorem printKinds_ne_nil (e : Expr) : printKinds e ≠ [] := by
  cases e with
  | Value v => simp [printKinds]
  | Variable n => simp [printKinds]
  | UnaryExpression op arg => cases op; simp [printKinds]
  | BinaryExpression op l r => simp [printKinds]

theorem wrapKinds_ne_nil (e : Expr) (p : Nat) : wrapKinds p e ≠ [] := by
  rw [wrapKinds]
  by_cases hp : p < precedence e
  · rw [if_pos hp]; exact printKinds_ne_nil e
  · rw [if_neg hp]; simp

theorem prefixesNonneg_single (k : TokenKind) (hk : kdepth k = 0) : prefixesNonneg [k] := by
  intro n
  cases n with
  | zero => simp [depthSum]
  | succ m => simp [depthSum, hk]

theorem prefixesNonneg_cons0 {k : TokenKind} {ks : List TokenKind} (hk : kdepth k = 0)
    (h : prefixesNonneg ks) : prefixesNonneg (k :: ks) := by
  intro n
  cases n with
  | zero => simp [depthSum]
  | succ m =>
    rw [List.take_succ_cons, depthSum_cons, hk]
    have := h m
    omega

theorem prefixesNonneg_append {xs ys : List TokenKind} (hx : prefixesNonneg xs)
    (h0 : 0 ≤ depthSum xs) (hy : prefixesNonneg ys) : prefixesNonneg (xs ++ ys) := by
  intro n
  rw [List.take_append_eq_append_take, depthSum_append]
  have h1 := hy (n - xs.length)
  by_cases hn : n ≤ xs.length
  · have h2 := hx n
    have hz : n - xs.length = 0 := by omega
    rw [hz]
    simp only [List.take_zero, depthSum_nil]
    omega
  · have : xs.take n = xs := List.take_of_length_le (by omega)
    rw [this]
    omega

theorem depthSum_wrap (ks : List TokenKind) :
    depthSum (TokenKind.OpenParanthesis :: (ks ++ [TokenKind.CloseParanthesis]))
      = depthSum ks := by
  simp [depthSum, kdepth]

theorem prefixesNonneg_wrap {ks : List TokenKind} (h0 : depthSum ks = 0)
    (hn : prefixesNonneg ks) :
    prefixesNonneg (TokenKind.OpenParanthesis :: (ks ++ [TokenKind.CloseParanthesis])) := by
  intro n
  cases n with
  | zero => simp [depthSum]
  | succ m =>
    rw [List.take_succ_cons, depthSum_cons]
    rw [List.take_append_eq_append_take, depthSum_append]
    have h1 := hn m
    have h2 : depthSum ([TokenKind.CloseParanthesis].take (m - ks.length)) = 0 ∨
        depthSum ([TokenKind.CloseParanthesis].take (m - ks.length)) = -1 := by
      cases hmk : m - ks.length with
      | zero => left; simp [depthSum]
      | succ u => right; simp [depthSum, kdepth]
    by_cases hm : m ≤ ks.length
    · rcases h2 with h2 | h2 <;> rw [h2] <;> simp [kdepth] <;> omega
    · have : ks.take m = ks := List.take_of_length_le (by omega)
      rw [this, h0]
      rcases h2 with h2 | h2 <;> rw [h2] <;> simp [kdepth]

theorem printKinds_bal : ∀ e : Expr,
    depthSum (printKinds e) = 0 ∧ prefixesNonneg (printKinds e) := by
  intro e
  induction e with
  | Value v =>
    exact ⟨rfl, prefixesNonneg_single _ rfl⟩
  | Variable n =>
    exact ⟨rfl, prefixesNonneg_single _ rfl⟩
  | UnaryExpression op arg ih =>
    cases op
    rw [printKinds_unary, wrapKinds]
    by_cases hp : 3 < precedence arg
    · rw [if_pos hp]
      refine ⟨?_, prefixesNonneg_cons0 rfl ih.2⟩
      rw [depthSum_cons, ih.1]
      rfl
    · rw [if_neg hp]
      refine ⟨?_, prefixesNonneg_cons0 rfl (prefixesNonneg_wrap ih.1 ih.2)⟩
      rw [depthSum_cons, depthSum_wrap, ih.1]
      rfl
  | BinaryExpression op l r ihl ihr =>
    rw [printKinds_bin]
    have wl : depthSum (wrapKinds (binPrecedence op) l) = 0
        ∧ prefixesNonneg (wrapKinds (binPrecedence op) l) := by
      rw [wrapKinds]
      by_cases hp : binPrecedence op < precedence l
      · rw [if_pos hp]; exact ihl
      · rw [if_neg hp]
        exact ⟨by rw [depthSum_wrap, ihl.1], prefixesNonneg_wrap ihl.1 ihl.2⟩
    have wr : depthSum (wrapKinds (binPrecedence op) r) = 0
        ∧ prefixesNonneg (wrapKinds (binPrecedence op) r) := by
      rw [wrapKinds]
      by_cases hp : binPrecedence op < precedence r
      · rw [if_pos hp]; exact ihr
      · rw [if_neg hp]
        exact ⟨by rw [depthSum_wrap, ihr.1], prefixesNonneg_wrap ihr.1 ihr.2⟩
    constructor
    · rw [depthSum_append, depthSum_cons, wl.1, wr.1]
      rfl
    · exact prefixesNonneg_append wl.2 (by omega)
        (prefixesNonneg_cons0 rfl wr.2)

theorem wrapKinds_bal (e : Expr) (p : Nat) :
    depthSum (wrapKinds p e) = 0 ∧ prefixesNonneg (wrapKinds p e) := by
  rw [wrapKinds]
  by_cases hp : p < precedence e
  · rw [if_pos hp]; exact printKinds_bal e
  · rw [if_neg hp]
    exact ⟨by rw [depthSum_wrap, (printKinds_bal e).1],
      prefixesNonneg_wrap (printKinds_bal e).1 (printKinds_bal e).2⟩

theorem opsMin_wrapped {ks : List TokenKind} (h0 : depthSum ks = 0)
    (hn : prefixesNonneg ks) (q : Nat) :
    opsMin (TokenKind.OpenParanthesis :: (ks ++ [TokenKind.CloseParanthesis])) 0 q := by
  refine ⟨fun nm hk => absurd hk (by simp), ?_⟩
  refine opsMin_of_pos fun n hlen => ?_
  rw [List.take_append_eq_append_take, depthSum_append]
  have h1 := hn n
  have h2 : depthSum ([TokenKind.CloseParanthesis].take (n - ks.length)) = 0 := by
    have : n - ks.length = 0 := by
      simp only [List.length_append, List.length_cons, List.length_nil] at hlen
      omega
    rw [this]
    rfl
  rw [h2]
  simp only [kdepth]
  omega

theorem opsMin_print : ∀ e : Expr, opsMin (printKinds e) 0 (precedence e) := by
  intro e
  induction e with
  | Value v =>
    exact ⟨fun nm hk => absurd hk (by simp), trivial⟩
  | Variable n =>
    exact ⟨fun nm hk => absurd hk (by simp), trivial⟩
  | UnaryExpression op arg ih =>
    cases op
    rw [printKinds_unary]
    refine ⟨fun nm hk _ => ?_, ?_⟩
    · cases hk
      simp [get_precedence, precedence]
    · rw [wrapKinds]
      by_cases hp : 3 < precedence arg
      · rw [if_pos hp]
        have harg : opsMin (printKinds arg) (0 + kdepth (TokenKind.Operator "!"))
            (precedence arg) := by
          simpa [kdepth] using ih
        exact opsMin_mono (show precedence (Expr.UnaryExpression .NEG arg) ≤ precedence arg
          from by show 3 ≤ precedence arg; omega) harg
      · rw [if_neg hp]
        have := opsMin_wrapped (printKinds_bal arg).1 (printKinds_bal arg).2
          (precedence (Expr.UnaryExpression .NEG arg))
        simpa [kdepth] using this
  | BinaryExpression op l r ihl ihr =>
    rw [printKinds_bin]
    have wl : opsMin (wrapKinds (binPrecedence op) l) 0 (binPrecedence op) := by
      rw [wrapKinds]
      by_cases hp : binPrecedence op < precedence l
      · rw [if_pos hp]
        exact opsMin_mono (by omega) ihl
      · rw [if_neg hp]
        exact opsMin_wrapped (printKinds_bal l).1 (printKinds_bal l).2 _
    have wr : opsMin (wrapKinds (binPrecedence op) r) 0 (binPrecedence op) := by
      rw [wrapKinds]
      by_cases hp : binPrecedence op < precedence r
      · rw [if_pos hp]
        exact opsMin_mono (by omega) ihr
      · rw [if_neg hp]
        exact opsMin_wrapped (printKinds_bal r).1 (printKinds_bal r).2 _
    refine opsMin_append (by simpa [precedence] using wl) ?_
    rw [(wrapKinds_bal l (binPrecedence op)).1]
    refine ⟨fun nm hk _ => ?_, ?_⟩
    · cases hk
      rw [get_precedence_opSymbol]
      simp [precedence]
    · have : (0 : Int) + 0 + kdepth (TokenKind.Operator (opSymbol op)) = 0 := by
        simp [kdepth]
      rw [this]
      simpa [precedence] using wr

theorem wrapKinds_opsMin (e : Expr) (p : Nat) : opsMin (wrapKinds p e) 0 (p + 1) := by
  rw [wrapKinds]
  by_cases hp : p < precedence e
  · rw [if_pos hp]
    exact opsMin_mono (by omega) (opsMin_print e)
  · rw [if_neg hp]
    exact opsMin_wrapped (printKinds_bal e).1 (printKinds_bal e).2 _

/-! ## The precedence scan over printed token lists -/

theorem find_print_open_none (t0 : Token) (mid : List Token) (tl : Token)
    (ht0 : t0.kind = .OpenParanthesis) (htl : tl.kind = .CloseParanthesis)
    (hn : prefixesNonneg (mid.map Token.kind)) :
    find_top_level_operator (t0 :: (mid ++ [tl])) = none := by
  rw [find_top_level_operator, findGo_opsOff _ 0 0 none ?_]
  · rfl
  · simp only [List.map_cons, List.map_append, List.map_nil]
    refine ⟨fun nm hk => ?_, ?_⟩
    · rw [ht0] at hk
      exact absurd hk (by simp)
    · rw [ht0]
      refine opsOff_of fun n nm hget => ?_
      by_cases hlt : n < (List.map Token.kind mid).length
      · have h1 := hn n
        rw [List.take_append_eq_append_take, depthSum_append,
          show n - (List.map Token.kind mid).length = 0 from by omega]
        simp only [List.take_zero, depthSum_nil, kdepth]
        omega
      · rw [List.get?_append_right (by omega), htl] at hget
        rcases hnk : n - (List.map Token.kind mid).length with _ | u <;>
          rw [hnk] at hget <;> simp at hget

theorem find_print_unary (arg : Expr) (t : Token) (B : List Token)
    (ht : t.kind = .Operator "!") (hB : B.map Token.kind = wrapKinds 3 arg) :
    find_top_level_operator (t :: B) = some 0 := by
  obtain ⟨p, k⟩ := t
  simp only at ht
  subst ht
  rw [find_top_level_operator]
  simp only [findGo]
  rw [if_pos trivial]
  rw [show has_higher_precedence none ⟨p, .Operator "!"⟩ = true from rfl, if_pos rfl]
  rw [findGo_keep B (0 + 1) 0 0 ⟨p, .Operator "!"⟩ "!" rfl ?_]
  · rfl
  · rw [hB]
    exact opsMin_mono (by simp [get_precedence]) (wrapKinds_opsMin arg 3)

theorem find_print_bin (op : BinaryOperator) (l r : Expr) (A : List Token) (t : Token)
    (B : List Token)
    (hA : A.map Token.kind = wrapKinds (binPrecedence op) l)
    (ht : t.kind = .Operator (opSymbol op))
    (hB : B.map Token.kind = wrapKinds (binPrecedence op) r) :
    find_top_level_operator (A ++ t :: B) = some A.length := by
  have hd : depthSum (A.map Token.kind) = 0 := by
    rw [hA]
    exact (wrapKinds_bal l _).1
  have hres : resMin (binPrecedence op + 1) (findGo A 0 0 none) := by
    refine findGo_resMin A 0 0 none _ ?_ (Or.inl rfl)
    rw [hA]
    exact wrapKinds_opsMin l _
  obtain ⟨p, k⟩ := t
  simp only at ht
  subst ht
  have hhp : has_higher_precedence (findGo A 0 0 none) ⟨p, .Operator (opSymbol op)⟩
      = true := by
    rcases hres with hnone | ⟨j, u, nm, hju, hu, hq⟩
    · rw [hnone]
      rfl
    · rw [hju]
      simp only [has_higher_precedence, hu]
      rw [get_precedence_opSymbol]
      simp only [decide_eq_true_eq, gt_iff_lt]
      omega
  rw [find_top_level_operator, findGo_append, hd]
  simp only [add_zero]
  simp only [findGo]
  rw [if_pos trivial, hhp, if_pos rfl]
  rw [findGo_keep B (0 + A.length + 1) (0 + A.length) 0 ⟨p, .Operator (opSymbol op)⟩
    (opSymbol op) rfl ?_]
  · simp
  · rw [hB, get_precedence_opSymbol]
    exact opsMin_mono (by omega) (wrapKinds_opsMin r _)

/-! ## Parsing a printed token list reproduces the tree -/

theorem parse_wrap_aux (e : Expr) (p : Nat)
    (IH : ∀ ts : List Token, ts.map Token.kind = printKinds e → parse ts = .ok e) :
    ∀ ts : List Token, ts.map Token.kind = wrapKinds p e → parse ts = .ok e := by
  intro ts h
  rw [wrapKinds] at h
  by_cases hp : p < precedence e
  · rw [if_pos hp] at h
    exact IH ts h
  · rw [if_neg hp] at h
    obtain ⟨t0, rest, rfl, ht0, hrest⟩ := List.map_eq_cons_iff.mp h
    obtain ⟨mid, tlL, hr2, hmid, htlL⟩ := List.map_eq_append_iff.mp hrest
    obtain ⟨tl, nilL, htlL2, htlk, hnil⟩ := List.map_eq_cons_iff.mp htlL
    have hnil2 : nilL = [] := by simpa using hnil
    subst hnil2
    subst htlL2
    subst hr2
    obtain ⟨p0, k0⟩ := t0
    simp only at ht0
    subst ht0
    have hlen2 : 2 ≤ ((⟨p0, .OpenParanthesis⟩ : Token) :: (mid ++ [tl])).length := by
      simp
    have hfind : find_top_level_operator ((⟨p0, .OpenParanthesis⟩ : Token)
        :: (mid ++ [tl])) = none := by
      refine find_print_open_none ⟨p0, .OpenParanthesis⟩ mid tl rfl htlk ?_
      rw [hmid]
      exact (printKinds_bal e).2
    have hscan : paren_scan (⟨p0, .OpenParanthesis⟩ :: (mid ++ [tl])) 0 = .ok 0 := by
      have hpn : ∀ n, (0 : Int)
          ≤ 0 + depthSum (((⟨p0, .OpenParanthesis⟩ :: (mid ++ [tl]) : List Token).map
            Token.kind).take n) := by
        intro n
        have := @prefixesNonneg_wrap (printKinds e) (printKinds_bal e).1
          (printKinds_bal e).2 n
        simp only [List.map_cons, List.map_append, List.map_nil, htlk, hmid]
        omega
      have hps := paren_scan_nonneg (⟨p0, .OpenParanthesis⟩ :: (mid ++ [tl])) 0 hpn
      rw [hps]
      congr 1
      simp only [List.map_cons, List.map_append, List.map_nil, htlk, hmid]
      have hw := depthSum_wrap (printKinds e)
      rw [(printKinds_bal e).1] at hw
      omega
    rw [parse_eq_paren hlen2 hfind]
    simp only [parse_paranthesis_expressionG, hscan, lt_self_iff_false, if_false,
      List.drop_succ_cons, List.drop_zero, List.dropLast_concat]
    exact IH mid hmid

theorem parse_printKinds : ∀ (e : Expr) (ts : List Token),
    ts.map Token.kind = printKinds e → parse ts = .ok e := by
  intro e
  induction e with
  | Value v =>
    intro ts h
    rw [show printKinds (.Value v) = [TokenKind.Value v] from rfl] at h
    obtain ⟨t, rest, rfl, hk, hrest⟩ := List.map_eq_cons_iff.mp h
    have : rest = [] := by simpa using hrest
    subst this
    rw [parse_one]
    simp [parse_single_token_expression, hk]
  | Variable n =>
    intro ts h
    rw [show printKinds (.Variable n) = [TokenKind.Variable n] from rfl] at h
    obtain ⟨t, rest, rfl, hk, hrest⟩ := List.map_eq_cons_iff.mp h
    have : rest = [] := by simpa using hrest
    subst this
    rw [parse_one]
    simp [parse_single_token_expression, hk]
  | UnaryExpression op arg ih =>
    cases op
    intro ts h
    rw [printKinds_unary] at h
    obtain ⟨t, B, rfl, hk, hB⟩ := List.map_eq_cons_iff.mp h
    have hBne : B ≠ [] := by
      intro he
      subst he
      exact wrapKinds_ne_nil arg 3 (by simpa using hB.symm)
    have hlenB : 0 < B.length := List.length_pos.mpr hBne
    have h2 : 2 ≤ (t :: B).length := by
      simp only [List.length_cons]
      omega
    have hfind := find_print_unary arg t B hk hB
    have hlt : 0 < (t :: B).length - 1 := by
      simp only [List.length_cons]
      omega
    have hdrop : (t :: B).drop (0 + 1) = B := rfl
    have hname : token_name t = "!" := by
      simp [token_name, hk]
    rw [parse_eq_op h2 hfind]
    simp only [parse_operator_expressionG, List.get?_cons_zero, lt_self_iff_false, if_false,
      hlt, if_true, hdrop, parse_wrap_aux arg 3 ih B hB, Except.map, hname]
  | BinaryExpression op l r ihl ihr =>
    intro ts h
    rw [printKinds_bin] at h
    obtain ⟨A, rest, rfl, hA, hrest⟩ := List.map_eq_append_iff.mp h
    obtain ⟨t, B, rfl, hk, hB⟩ := List.map_eq_cons_iff.mp hrest
    have hAne : A ≠ [] := by
      intro he
      subst he
      exact wrapKinds_ne_nil l _ (by simpa using hA.symm)
    have hBne : B ≠ [] := by
      intro he
      subst he
      exact wrapKinds_ne_nil r _ (by simpa using hB.symm)
    have hlenA : 0 < A.length := List.length_pos.mpr hAne
    have hlenB : 0 < B.length := List.length_pos.mpr hBne
    have h2 : 2 ≤ (A ++ t :: B).length := by
      simp only [List.length_append, List.length_cons]
      omega
    have hfind := find_print_bin op l r A t B hA hk hB
    have hget : (A ++ t :: B).get? A.length = some t := by
      rw [List.get?_append_right (le_refl _)]
      simp
    have htake : (A ++ t :: B).take A.length = A := List.take_left A _
    have hlt : A.length < (A ++ t :: B).length - 1 := by
      simp only [List.length_append, List.length_cons]
      omega
    have hdrop : (A ++ t :: B).drop (A.length + 1) = B := by
      rw [show A ++ t :: B = (A ++ [t]) ++ B by simp]
      exact List.drop_left' (by simp)
    have hname : token_name t = opSymbol op := by
      simp [token_name, hk]
    rw [parse_eq_op h2 hfind]
    simp only [parse_operator_expressionG, hget, hlenA, if_true, htake,
      parse_wrap_aux l _ ihl A hA, hlt, hdrop, parse_wrap_aux r _ ihr B hB,
      Except.map, hname]
    cases op with
    | OR =>
      rw [if_neg (by decide), if_pos (by decide)]
    | AND =>
      rw [if_neg (by decide), if_neg (by decide), if_pos (by decide)]
    | XOR =>
      rw [if_neg (by decide), if_neg (by decide), if_neg (by decide), if_pos (by decide)]
    | EQ =>
      rw [if_neg (by decide), if_neg (by decide), if_neg (by decide), if_neg (by decide),
        if_pos (by decide)]
    | IMP =>
      rw [if_neg (by decide), if_neg (by decide), if_neg (by decide), if_neg (by decide),
        if_neg (by decide), if_pos (by decide)]

/-! ## Invariant of successful tokenization -/

theorem byteLen_eq_zero {cs : List Char} (h : byteLen cs = 0) : cs = [] := by
  cases cs with
  | nil => rfl
  | cons c cs =>
    have := byteLen_cons_pos c cs
    omega

theorem prefix_eq_of_byteLen : ∀ (a b l1 l2 : List Char), a ++ l1 = b ++ l2 →
    byteLen a = byteLen b → a = b := by
  intro a
  induction a with
  | nil =>
    intro b l1 l2 _ hb
    exact (byteLen_eq_zero (by rw [← hb]; rfl)).symm
  | cons c a ih =>
    intro b l1 l2 heq hb
    cases b with
    | nil =>
      exfalso
      have := byteLen_cons_pos c a
      simp only [byteLen_nil] at hb
      omega
    | cons d b =>
      simp only [List.cons_append, List.cons.injEq] at heq
      obtain ⟨rfl, heq2⟩ := heq
      simp only [byteLen_cons] at hb
      rw [ih b l1 l2 heq2 (by omega)]

theorem all_one_of_byteLen_eq_length : ∀ (cs : List Char), byteLen cs = cs.length →
    ∀ c ∈ cs, c.utf8Size = 1 := by
  intro cs
  induction cs with
  | nil => intro _ c hc; simp at hc
  | cons c cs ih =>
    intro h d hd
    have h1 := Char.utf8Size_pos c
    have h2 := length_le_byteLen cs
    simp only [byteLen_cons, List.length_cons] at h
    rcases List.mem_cons.mp hd with rfl | hd2
    · omega
    · exact ih (by omega) d hd2

theorem varTokensChained_nil : varTokensChained [] := by
  intro i nm h
  simp at h

theorem varTokensChained_cons {t : Token} {l : List Token}
    (h1 : ∀ nm, t.kind = TokenKind.Variable nm → goodName nm ∨
      ∃ nm2, (l.get? 0).map Token.kind = some (TokenKind.Variable nm2))
    (h2 : varTokensChained l) : varTokensChained (t :: l) := by
  intro i nm h
  cases i with
  | zero =>
    simp only [List.get?_cons_zero, Option.map_some', Option.some.injEq] at h
    rcases h1 nm h with hg | ⟨nm2, hh⟩
    · exact Or.inl hg
    · exact Or.inr ⟨nm2, by simpa using hh⟩
  | succ j =>
    simp only [List.get?_cons_succ] at h ⊢
    exact h2 j nm h

theorem identScan_some_zero {c : Char} {cs : List Char}
    (h : identScan (c :: cs) = some 0) : rustIsAlphabetic c = false := by
  by_cases hc : rustIsAlphabetic c = true
  · have := identScan_head_alpha_pos h hc
    omega
  · rw [Bool.not_eq_true] at hc
    exact hc

theorem tokenizeRun_nil_ok {pos : Nat} {acc out : List Token}
    (h : tokenizeRun [] pos acc = some (.ok out)) : out = acc := by
  rw [tokenizeRun] at h
  simp only [tokenizeLoop] at h
  by_cases hacc : acc.isEmpty
  · rw [if_pos hacc] at h
    exact absurd h (by simp)
  · rw [if_neg hacc] at h
    simp only [Option.some.injEq, Except.ok.injEq] at h
    exact h.symm

theorem tokenizeRun_scan_none (c : Char) (cs : List Char) (pos : Nat) (acc : List Token)
    (hws : ¬(c = ' ' ∨ c = '\t')) (hscan : identScan (c :: cs) = none) :
    tokenizeRun (c :: cs) pos acc = none := by
  rw [tokenizeRun]
  simp only [List.length_cons]
  rw [tokenizeLoop, if_neg hws, hscan]

theorem tokenizeRun_ident_step (c : Char) (cs : List Char) (pos : Nat) (acc : List Token)
    (i : Nat) (name rest2 : List Char) (hws : ¬(c = ' ' ∨ c = '\t'))
    (hscan : identScan (c :: cs) = some i) (hi : 0 < i)
    (htk : takeBytes (c :: cs) i = some name) (hdr : dropBytes (c :: cs) i = some rest2) :
    tokenizeRun (c :: cs) pos acc
      = tokenizeRun rest2 (pos + i) (acc ++ [⟨pos, .Variable (String.mk name)⟩]) := by
  rw [tokenizeRun]
  simp only [List.length_cons]
  rw [tokenizeLoop, if_neg hws]
  simp only [hscan, hi, if_true, htk, hdr]
  refine tokenizeLoop_eq_run _ rest2 _ _ ?_
  have := dropBytes_length_lt hdr hi
  simp only [List.length_cons] at this
  omega

theorem tokenizeRun_ident_none (c : Char) (cs : List Char) (pos : Nat) (acc : List Token)
    (i : Nat) (hws : ¬(c = ' ' ∨ c = '\t'))
    (hscan : identScan (c :: cs) = some i) (hi : 0 < i)
    (hbad : takeBytes (c :: cs) i = none ∨ dropBytes (c :: cs) i = none) :
    tokenizeRun (c :: cs) pos acc = none := by
  rw [tokenizeRun]
  simp only [List.length_cons]
  rw [tokenizeLoop, if_neg hws]
  simp only [hscan, hi, if_true]
  rcases hbad with hb | hb
  · simp only [hb]
  · cases htk : takeBytes (c :: cs) i with
    | none => simp only [htk]
    | some name => simp only [htk, hb]

theorem tokenizeRun_ok_inv : ∀ (n : Nat) (cs : List Char) (pos : Nat) (acc out : List Token),
    cs.length ≤ n → tokenizeRun cs pos acc = some (.ok out) →
    ∃ suf, out = acc ++ suf
      ∧ (headAlpha cs → ∃ t nm suf2, suf = t :: suf2 ∧ t.kind = TokenKind.Variable nm)
      ∧ varTokensChained suf := by
  intro n
  induction n with
  | zero =>
    intro cs pos acc out hn hrun
    have : cs = [] := List.length_eq_zero.mp (by omega)
    subst this
    refine ⟨[], ?_, ?_, varTokensChained_nil⟩
    · rw [tokenizeRun_nil_ok hrun]
      simp
    · rintro ⟨c, hc, -⟩
      simp at hc
  | succ m ih =>
    intro cs pos acc out hn hrun
    cases cs with
    | nil =>
      refine ⟨[], by rw [tokenizeRun_nil_ok hrun]; simp, ?_, varTokensChained_nil⟩
      rintro ⟨c, hc, -⟩
      simp at hc
    | cons c cs =>
      have hlen : cs.length ≤ m := by
        simp only [List.length_cons] at hn
        omega
      by_cases hws : c = ' ' ∨ c = '\t'
      · rw [tokenizeRun_ws c cs pos acc hws] at hrun
        obtain ⟨suf, hout, -, hchain⟩ := ih cs (pos + 1) acc out hlen hrun
        refine ⟨suf, hout, ?_, hchain⟩
        rintro ⟨d, hd, hda⟩
        simp only [List.head?_cons, Option.some.injEq] at hd
        subst hd
        rcases hws with h | h <;> rw [h] at hda <;> exact absurd hda (by decide)
      · cases hscan : identScan (c :: cs) with
        | none =>
          rw [tokenizeRun_scan_none c cs pos acc hws hscan] at hrun
          exact absurd hrun (by simp)
        | some i =>
          by_cases hi : 0 < i
          · -- identifier branch
            cases htk : takeBytes (c :: cs) i with
            | none =>
              rw [tokenizeRun_ident_none c cs pos acc i hws hscan hi (Or.inl htk)] at hrun
              exact absurd hrun (by simp)
            | some name =>
              cases hdr : dropBytes (c :: cs) i with
              | none =>
                rw [tokenizeRun_ident_none c cs pos acc i hws hscan hi (Or.inr hdr)] at hrun
                exact absurd hrun (by simp)
              | some rest2 =>
                rw [tokenizeRun_ident_step c cs pos acc i name rest2 hws hscan hi htk hdr]
                  at hrun
                obtain ⟨l1, hsplit1, hbl1⟩ := takeBytes_decomp _ _ _ htk
                obtain ⟨xs2, hsplit2, hbl2⟩ := dropBytes_decomp _ _ _ hdr
                have hxs : xs2 = name :=
                  prefix_eq_of_byteLen xs2 name rest2 l1 (by rw [← hsplit2, hsplit1])
                    (by omega)
                rw [hxs] at hsplit2 hbl2
                have hlenr : rest2.length ≤ m := by
                  have := dropBytes_length_lt hdr hi
                  simp only [List.length_cons] at this
                  omega
                obtain ⟨suf2, hout, hheadA, hchain⟩ := ih rest2 (pos + i)
                  (acc ++ [⟨pos, .Variable (String.mk name)⟩]) out hlenr hrun
                have hnl : name.length ≤ i := by
                  rw [← hbl1]
                  exact length_le_byteLen name
                have halpha_pref := identScan_alpha_prefix hscan
                have hchars : ∀ d ∈ name, rustIsAlphabetic d = true := by
                  intro d hd
                  obtain ⟨j, hj⟩ := List.mem_iff_get?.mp hd
                  have hjlt : j < name.length := by
                    rcases List.get?_eq_some.mp hj with ⟨hl, -⟩
                    exact hl
                  obtain ⟨e, he, hea⟩ := halpha_pref j (by omega)
                  rw [hsplit1, List.get?_append hjlt, hj] at he
                  simp only [Option.some.injEq] at he
                  rw [he]
                  exact hea
                have hnne : name ≠ [] := by
                  intro he
                  rw [he] at hbl1
                  simp only [byteLen_nil] at hbl1
                  omega
                refine ⟨⟨pos, .Variable (String.mk name)⟩ :: suf2, by simpa using hout,
                  fun _ => ⟨_, String.mk name, suf2, rfl, rfl⟩, ?_⟩
                refine varTokensChained_cons ?_ hchain
                intro nm hnm
                simp only [TokenKind.Variable.injEq] at hnm
                by_cases hgood : name.length = i
                · left
                  rw [← hnm]
                  exact ⟨hnne, fun d hd =>
                    ⟨hchars d hd, all_one_of_byteLen_eq_length name (by omega) d hd⟩⟩
                · -- a multi-byte name: the leftover of the run follows immediately
                  right
                  have hrest2A : headAlpha rest2 := by
                    obtain ⟨e, he, hea⟩ := halpha_pref name.length (by omega)
                    rw [hsplit2, List.get?_append_right (le_refl _), Nat.sub_self] at he
                    cases rest2 with
                    | nil => simp at he
                    | cons r0 rest3 =>
                      simp only [List.get?_cons_zero, Option.some.injEq] at he
                      exact ⟨r0, by simp, by rw [he]; exact hea⟩
                  obtain ⟨t2, nm2, suf3, hsuf2, ht2⟩ := hheadA hrest2A
                  exact ⟨nm2, by rw [hsuf2]; simp [ht2]⟩
          · have hi0 : i = 0 := by omega
            subst hi0
            have hca : rustIsAlphabetic c = false := identScan_some_zero hscan
            have hnotA : ¬ headAlpha (c :: cs) := by
              rintro ⟨d, hd, hda⟩
              simp only [List.head?_cons, Option.some.injEq] at hd
              subst hd
              rw [hca] at hda
              exact absurd hda (by simp)
            have assemble : ∀ (k : TokenKind) (cs2 : List Char) (pos2 : Nat),
                cs2.length ≤ m → (∀ nm, k ≠ TokenKind.Variable nm) →
                tokenizeRun cs2 pos2 (acc ++ [⟨pos, k⟩]) = some (.ok out) →
                ∃ suf, out = acc ++ suf
                  ∧ (headAlpha (c :: cs) →
                    ∃ t nm suf2, suf = t :: suf2 ∧ t.kind = TokenKind.Variable nm)
                  ∧ varTokensChained suf := by
              intro k cs2 pos2 hl2 hk hrun2
              obtain ⟨suf2, hout, -, hchain⟩ := ih cs2 pos2 _ out hl2 hrun2
              refine ⟨⟨pos, k⟩ :: suf2, by simpa using hout,
                fun hA => absurd hA hnotA, ?_⟩
              refine varTokensChained_cons ?_ hchain
              intro nm hnm
              exact absurd hnm (hk nm)
            by_cases harrow : c = '=' ∧ cs.head? = some '>'
            · obtain ⟨rfl, hcs⟩ := harrow
              cases cs with
              | nil => simp at hcs
              | cons d cs2 =>
                simp only [List.head?_cons, Option.some.injEq] at hcs
                subst hcs
                rw [tokenizeRun_arrow cs2 pos acc] at hrun
                exact assemble (.Operator "=>") cs2 (pos + 2)
                  (by simp only [List.length_cons] at hlen; omega)
                  (fun nm => by simp) hrun
            · by_cases h0 : c = '0'
              · subst h0
                rw [tokenizeRun_single '0' (.Value false) cs pos acc hws (by decide)
                  harrow (by decide)] at hrun
                exact assemble _ cs (pos + 1) hlen (fun nm => by simp) hrun
              by_cases h1 : c = '1'
              · subst h1
                rw [tokenizeRun_single '1' (.Value true) cs pos acc hws (by decide)
                  harrow (by decide)] at hrun
                exact assemble _ cs (pos + 1) hlen (fun nm => by simp) hrun
              by_cases h2 : c = '&'
              · subst h2
                rw [tokenizeRun_single '&' (.Operator "&") cs pos acc hws (by decide)
                  harrow (by decide)] at hrun
                exact assemble _ cs (pos + 1) hlen (fun nm => by simp) hrun
              by_cases h3 : c = '|'
              · subst h3
                rw [tokenizeRun_single '|' (.Operator "|") cs pos acc hws (by decide)
                  harrow (by decide)] at hrun
                exact assemble _ cs (pos + 1) hlen (fun nm => by simp) hrun
              by_cases h4 : c = '^'
              · subst h4
                rw [tokenizeRun_single '^' (.Operator "^") cs pos acc hws (by decide)
                  harrow (by decide)] at hrun
                exact assemble _ cs (pos + 1) hlen (fun nm => by simp) hrun
              by_cases h5 : c = '='
              · subst h5
                rw [tokenizeRun_single '=' (.Operator "=") cs pos acc hws (by decide)
                  harrow (by decide)] at hrun
                exact assemble _ cs (pos + 1) hlen (fun nm => by simp) hrun
              by_cases h6 : c = '!'
              · subst h6
                rw [tokenizeRun_single '!' (.Operator "!") cs pos acc hws (by decide)
                  harrow (by decide)] at hrun
                exact assemble _ cs (pos + 1) hlen (fun nm => by simp) hrun
              by_cases h7 : c = '('
              · subst h7
                rw [tokenizeRun_single '(' .OpenParanthesis cs pos acc hws (by decide)
                  harrow (by decide)] at hrun
                exact assemble _ cs (pos + 1) hlen (fun nm => by simp) hrun
              by_cases h8 : c = ')'
              · subst h8
                rw [tokenizeRun_single ')' .CloseParanthesis cs pos acc hws (by decide)
                  harrow (by decide)] at hrun
                exact assemble _ cs (pos + 1) hlen (fun nm => by simp) hrun
              -- invalid character: the run returns an error, contradiction
              rw [tokenizeRun] at hrun
              simp only [List.length_cons] at hrun
              rw [tokenizeLoop, if_neg hws] at hrun
              simp only [hscan, lt_self_iff_false, if_false, h5, false_and, h0, h1, h2,
                h3, h4, h6, h7, h8] at hrun
              exact absurd hrun (by simp)

/-! ## Structure of successfully parsed token lists -/

theorem noAdjOperands_nil : noAdjOperands [] := by
  intro i u u' hu _ _ _
  simp at hu

theorem noAdjOperands_single (t : Token) : noAdjOperands [t] := by
  intro i u u' hu hu' _ _
  cases i with
  | zero => simp at hu'
  | succ j => simp at hu

theorem noAdjOperands_split (A : List Token) (t : Token) (B : List Token)
    (ht : isOperandK t.kind = false)
    (hA : noAdjOperands A) (hB : noAdjOperands B) : noAdjOperands (A ++ t :: B) := by
  intro i u u' hu hu' hou hou'
  by_cases hi1 : i + 1 < A.length
  · rw [List.get?_append (by omega)] at hu
    rw [List.get?_append hi1] at hu'
    exact hA i u u' hu hu' hou hou'
  · by_cases hi2 : i + 1 = A.length
    · rw [List.get?_append_right (by omega), hi2, Nat.sub_self] at hu'
      simp only [List.get?_cons_zero, Option.some.injEq] at hu'
      rw [hu', hou'] at ht
      exact absurd ht (by simp)
    · by_cases hi3 : i = A.length
      · rw [List.get?_append_right (by omega), hi3, Nat.sub_self] at hu
        simp only [List.get?_cons_zero, Option.some.injEq] at hu
        rw [hu, hou] at ht
        exact absurd ht (by simp)
      · have hgt : A.length < i := by omega
        rw [List.get?_append_right (by omega)] at hu hu'
        obtain ⟨j, hj⟩ : ∃ j, i - A.length = j + 1 := ⟨i - A.length - 1, by omega⟩
        rw [hj, List.get?_cons_succ] at hu
        rw [show i + 1 - A.length = j + 1 + 1 from by omega, List.get?_cons_succ] at hu'
        exact hB j u u' hu hu' hou hou'

theorem parse_ok_struct : ∀ (n : Nat) (ts : List Token) (e : Expr), ts.length ≤ n →
    parse ts = .ok e →
    depthSum (ts.map Token.kind) = 0 ∧ noAdjOperands ts ∧
      ∀ nm ∈ varsOf e, ∃ i t, ts.get? i = some t ∧ t.kind = TokenKind.Variable nm := by
  intro n
  induction n with
  | zero =>
    intro ts e hn hp
    have : ts = [] := List.length_eq_zero.mp (by omega)
    subst this
    rw [parse_nil] at hp
    exact absurd hp (by simp)
  | succ m ih =>
    intro ts e hn hp
    cases ts with
    | nil =>
      rw [parse_nil] at hp
      exact absurd hp (by simp)
    | cons t tsA =>
    cases tsA with
    | nil =>
      rw [parse_one] at hp
      cases hk : t.kind with
      | Value v =>
        simp only [parse_single_token_expression, hk] at hp
        obtain rfl : Expr.Value v = e := by simpa using hp
        refine ⟨by simp [depthSum, hk, kdepth], noAdjOperands_single t, ?_⟩
        intro nm hnm
        simp [varsOf] at hnm
      | Variable nm2 =>
        simp only [parse_single_token_expression, hk] at hp
        obtain rfl : Expr.Variable nm2 = e := by simpa using hp
        refine ⟨by simp [depthSum, hk, kdepth], noAdjOperands_single t, ?_⟩
        intro nm hnm
        simp only [varsOf, List.mem_singleton] at hnm
        exact ⟨0, t, rfl, by rw [hk, hnm]⟩
      | Operator nm2 => simp [parse_single_token_expression, hk] at hp
      | OpenParanthesis => simp [parse_single_token_expression, hk] at hp
      | CloseParanthesis => simp [parse_single_token_expression, hk] at hp
    | cons t2 rest =>
      revert hn hp
      revert t
      intro t1 hn hp
      have hlen : rest.length + 2 ≤ m + 1 := by simpa using hn
      cases hfind : find_top_level_operator (t1 :: t2 :: rest) with
      | some pos =>
        rw [parse_eq_op (by simp) hfind] at hp
        obtain ⟨hposlt, token, nmop, hget, hkind⟩ := find_top_level_operator_some hfind
        have hposlt2 : pos < rest.length + 2 := by simpa using hposlt
        simp only [parse_operator_expressionG, hget] at hp
        by_cases hposr : pos < (t1 :: t2 :: rest).length - 1
        case neg =>
          -- no right operand: every outcome is an error
          rw [if_neg hposr] at hp
          by_cases hpos0 : 0 < pos
          · rw [if_pos hpos0] at hp
            cases hpt : parse ((t1 :: t2 :: rest).take pos) with
            | error err => rw [hpt] at hp; simp [Except.map] at hp
            | ok l => rw [hpt] at hp; simp [Except.map] at hp
          · rw [if_neg hpos0] at hp
            simp at hp
        case pos =>
        by_cases hpos0 : 0 < pos
        · rw [if_pos hpos0] at hp
          cases hpt : parse ((t1 :: t2 :: rest).take pos) with
          | error err => rw [hpt] at hp; simp [Except.map] at hp
          | ok l =>
            rw [hpt] at hp
            simp only [Except.map] at hp
            rw [if_pos hposr] at hp
            cases hpr : parse ((t1 :: t2 :: rest).drop (pos + 1)) with
            | error err => rw [hpr] at hp; simp [Except.map] at hp
            | ok r =>
              rw [hpr] at hp
              simp only [Except.map] at hp
              have hTake := ih ((t1 :: t2 :: rest).take pos) l
                (by simp only [List.length_take, List.length_cons]; omega) hpt
              have hDrop := ih ((t1 :: t2 :: rest).drop (pos + 1)) r
                (by simp only [List.length_drop, List.length_cons]; omega) hpr
              have hsplit : t1 :: t2 :: rest = (t1 :: t2 :: rest).take pos
                  ++ token :: (t1 :: t2 :: rest).drop (pos + 1) := by
                conv_lhs => rw [← List.take_append_drop pos (t1 :: t2 :: rest)]
                congr 1
                rw [List.drop_eq_get_cons hposlt]
                congr 1
                rcases List.get?_eq_some.mp hget with ⟨h1, h2⟩
                exact h2
              have hdepth : depthSum ((t1 :: t2 :: rest).map Token.kind) = 0 := by
                conv_lhs => rw [hsplit]
                simp only [List.map_append, List.map_cons, depthSum_append, depthSum_cons,
                  hkind, kdepth]
                rw [hTake.1, hDrop.1]
                omega
              have hnoadj : noAdjOperands (t1 :: t2 :: rest) := by
                rw [hsplit]
                exact noAdjOperands_split _ token _ (by simp [isOperandK, hkind])
                  hTake.2.1 hDrop.2.1
              have hvars : ∀ nm ∈ varsOf l ++ varsOf r, ∃ i t,
                  (t1 :: t2 :: rest).get? i = some t ∧ t.kind = TokenKind.Variable nm := by
                intro nm hnm
                rcases List.mem_append.mp hnm with hv | hv
                · obtain ⟨i, t, hgt, hkt⟩ := hTake.2.2 nm hv
                  have hilt : i < pos := by
                    rcases List.get?_eq_some.mp hgt with ⟨hl, -⟩
                    simp only [List.length_take] at hl
                    omega
                  exact ⟨i, t, by rw [← List.get?_take hilt]; exact hgt, hkt⟩
                · obtain ⟨i, t, hgt, hkt⟩ := hDrop.2.2 nm hv
                  refine ⟨pos + 1 + i, t, ?_, hkt⟩
                  rw [← List.get?_drop]
                  exact hgt
              by_cases hb1 : token_name token = "!"
              · rw [if_pos hb1] at hp
                exact absurd hp (by simp)
              rw [if_neg hb1] at hp
              by_cases hb2 : token_name token = "|"
              · rw [if_pos hb2] at hp
                obtain rfl : Expr.BinaryExpression .OR l r = e := by simpa using hp
                exact ⟨hdepth, hnoadj, by simpa [varsOf] using hvars⟩
              rw [if_neg hb2] at hp
              by_cases hb3 : token_name token = "&"
              · rw [if_pos hb3] at hp
                obtain rfl : Expr.BinaryExpression .AND l r = e := by simpa using hp
                exact ⟨hdepth, hnoadj, by simpa [varsOf] using hvars⟩
              rw [if_neg hb3] at hp
              by_cases hb4 : token_name token = "^"
              · rw [if_pos hb4] at hp
                obtain rfl : Expr.BinaryExpression .XOR l r = e := by simpa using hp
                exact ⟨hdepth, hnoadj, by simpa [varsOf] using hvars⟩
              rw [if_neg hb4] at hp
              by_cases hb5 : token_name token = "="
              · rw [if_pos hb5] at hp
                obtain rfl : Expr.BinaryExpression .EQ l r = e := by simpa using hp
                exact ⟨hdepth, hnoadj, by simpa [varsOf] using hvars⟩
              rw [if_neg hb5] at hp
              by_cases hb6 : token_name token = "=>"
              · rw [if_pos hb6] at hp
                obtain rfl : Expr.BinaryExpression .IMP l r = e := by simpa using hp
                exact ⟨hdepth, hnoadj, by simpa [varsOf] using hvars⟩
              rw [if_neg hb6] at hp
              exact absurd hp (by simp)
        · -- pos = 0: unary position
          rw [if_neg hpos0] at hp
          have hpz : pos = 0 := by omega
          subst hpz
          simp only [Except.map] at hp
          rw [if_pos hposr] at hp
          cases hpr : parse ((t1 :: t2 :: rest).drop (0 + 1)) with
          | error err => rw [hpr] at hp; simp [Except.map] at hp
          | ok r =>
            rw [hpr] at hp
            simp only [Except.map] at hp
            have hdropeq : (t1 :: t2 :: rest).drop (0 + 1) = t2 :: rest := rfl
            rw [hdropeq] at hpr
            have hDrop := ih (t2 :: rest) r
              (by simp only [List.length_cons]; omega) hpr
            have htok : token = t1 := by
              simpa using hget.symm
            subst htok
            by_cases hb1 : token_name token = "!"
            · rw [if_pos hb1] at hp
              obtain rfl : Expr.UnaryExpression .NEG r = e := by simpa using hp
              refine ⟨?_, ?_, ?_⟩
              · have h2 := hDrop.1
                simp only [List.map_cons, depthSum_cons] at h2
                simp only [List.map_cons, depthSum_cons, hkind]
                have h3 : kdepth (TokenKind.Operator nmop) = 0 := rfl
                omega
              · have : token :: t2 :: rest = [] ++ token :: (t2 :: rest) := rfl
                rw [this]
                exact noAdjOperands_split [] token (t2 :: rest)
                  (by simp [isOperandK, hkind]) noAdjOperands_nil hDrop.2.1
              · intro nm hnm
                simp only [varsOf] at hnm
                obtain ⟨i, t, hgt, hkt⟩ := hDrop.2.2 nm hnm
                exact ⟨i + 1, t, by simpa using hgt, hkt⟩
            · rw [if_neg hb1] at hp
              by_cases hb2 : token_name token = "|" ∨ token_name token = "&"
                  ∨ token_name token = "^" ∨ token_name token = "="
                  ∨ token_name token = "=>"
              · rw [if_pos hb2] at hp
                exact absurd hp (by simp)
              · rw [if_neg hb2] at hp
                exact absurd hp (by simp)
      | none =>
        rw [parse_eq_paren (by simp) hfind] at hp
        cases hk1 : t1.kind with
        | OpenParanthesis =>
          simp only [parse_paranthesis_expressionG, hk1] at hp
          cases hscan : paren_scan (t1 :: t2 :: rest) 0 with
          | error err =>
            simp only [hscan] at hp
            exact absurd hp (by simp)
          | ok plevel =>
            simp only [hscan] at hp
            by_cases hpl : 0 < plevel
            · rw [if_pos hpl] at hp
              cases hgl : (t1 :: t2 :: rest).getLast? <;> simp [hgl] at hp
            · rw [if_neg hpl] at hp
              simp only [List.drop_succ_cons, List.drop_zero] at hp
              have hne : t2 :: rest ≠ [] := by simp
              have hIH := ih ((t2 :: rest).dropLast) e
                (by simp only [List.length_dropLast, List.length_cons]; omega) hp
              have hdecomp : t2 :: rest
                  = (t2 :: rest).dropLast ++ [(t2 :: rest).getLast hne] :=
                (List.dropLast_append_getLast hne).symm
              have hplev : plevel = 0 + depthSum ((t1 :: t2 :: rest).map Token.kind) :=
                paren_scan_ok_val _ 0 plevel hscan
              have hdf : depthSum ((t1 :: t2 :: rest).map Token.kind)
                  = 1 + depthSum (((t2 :: rest).dropLast).map Token.kind)
                    + kdepth ((t2 :: rest).getLast hne).kind := by
                conv_lhs => rw [show t1 :: t2 :: rest = t1 :: ((t2 :: rest).dropLast
                  ++ [(t2 :: rest).getLast hne]) from by rw [← hdecomp]]
                simp only [List.map_cons, List.map_append, depthSum_cons, depthSum_append,
                  hk1, kdepth, List.map_nil]
                simp [depthSum]
                omega
              have hkd : kdepth ((t2 :: rest).getLast hne).kind ≤ -1 := by
                rw [hIH.1] at hdf
                omega
              have htlclose : ((t2 :: rest).getLast hne).kind = .CloseParanthesis := by
                cases h : ((t2 :: rest).getLast hne).kind with
                | Value v =>
                  rw [h] at hkd
                  have h4 : kdepth (TokenKind.Value v) = 0 := rfl
                  omega
                | Variable s =>
                  rw [h] at hkd
                  have h4 : kdepth (TokenKind.Variable s) = 0 := rfl
                  omega
                | Operator s =>
                  rw [h] at hkd
                  have h4 : kdepth (TokenKind.Operator s) = 0 := rfl
                  omega
                | OpenParanthesis =>
                  rw [h] at hkd
                  have h4 : kdepth TokenKind.OpenParanthesis = 1 := rfl
                  omega
                | CloseParanthesis => rfl
              refine ⟨?_, ?_, ?_⟩
              · rw [hdf, hIH.1, htlclose]
                simp [kdepth]
              · conv => rw [show t1 :: t2 :: rest = t1 :: ((t2 :: rest).dropLast
                  ++ [(t2 :: rest).getLast hne]) from by rw [← hdecomp]]
                have h2 : noAdjOperands ((t2 :: rest).dropLast
                    ++ ((t2 :: rest).getLast hne) :: []) :=
                  noAdjOperands_split _ _ _ (by simp [isOperandK, htlclose])
                    hIH.2.1 noAdjOperands_nil
                have h3 : t1 :: ((t2 :: rest).dropLast ++ [(t2 :: rest).getLast hne])
                    = [] ++ t1 :: ((t2 :: rest).dropLast ++ [(t2 :: rest).getLast hne]) :=
                  rfl
                rw [h3]
                exact noAdjOperands_split [] t1 _ (by simp [isOperandK, hk1])
                  noAdjOperands_nil h2
              · intro nm hnm
                obtain ⟨i, t, hgt, hkt⟩ := hIH.2.2 nm hnm
                have hilt : i < (t2 :: rest).dropLast.length := by
                  rcases List.get?_eq_some.mp hgt with ⟨hl, -⟩
                  exact hl
                refine ⟨i + 1, t, ?_, hkt⟩
                rw [List.get?_cons_succ, hdecomp, List.get?_append hilt]
                exact hgt
        | Value v =>
          simp [parse_paranthesis_expressionG, hk1] at hp
        | Variable nm2 =>
          simp [parse_paranthesis_expressionG, hk1] at hp
        | Operator nm2 =>
          simp [parse_paranthesis_expressionG, hk1] at hp
        | CloseParanthesis =>
          simp [parse_paranthesis_expressionG, hk1] at hp

/-! ## Round trip: print, tokenize, parse -/

theorem tokenizeRun_nil_of_ne (pos : Nat) (acc : List Token) (h : acc ≠ []) :
    tokenizeRun [] pos acc = some (.ok acc) := by
  cases acc with
  | nil => exact absurd rfl h
  | cons a l => rfl

theorem tokenize_print (T : Expr) (hg : goodNames T) :
    ∃ ts, tokenize (to_string T) = some (.ok ts) ∧ ts.map Token.kind = printKinds T := by
  obtain ⟨ts, pos2, heq, hk⟩ := tokenizeRun_print T [] 0 [] hg (by intro c hc; simp at hc)
  refine ⟨ts, ?_, hk⟩
  have hne : ts ≠ [] := by
    intro h
    subst h
    exact printKinds_ne_nil T (by simpa using hk.symm)
  have h0 : tokenize (to_string T) = tokenizeRun ((to_string T).data ++ []) 0 [] := by
    rw [List.append_nil]
    rfl
  rw [h0, heq]
  simpa using tokenizeRun_nil_of_ne pos2 ([] ++ ts) (by simpa using hne)

theorem goodName_of_tokens (ts : List Token)
    (hch : varTokensChained ts) (hna : noAdjOperands ts) :
    ∀ i t nm, ts.get? i = some t → t.kind = TokenKind.Variable nm → goodName nm := by
  intro i t nm hgt hk
  rcases hch i nm (by rw [hgt]; simp [hk]) with h | ⟨nm2, h2⟩
  · exact h
  · exfalso
    rcases Option.map_eq_some'.mp h2 with ⟨t', hgt', hk'⟩
    exact hna i t t' hgt hgt' (by simp [isOperandK, hk]) (by simp [isOperandK, hk'])

theorem goodNames_of_parse_tokenize (s : String) (T : Expr) (ts : List Token)
    (htok : tokenize s = some (.ok ts)) (hp : parse ts = .ok T) : goodNames T := by
  have htok' : tokenizeRun s.data 0 [] = some (.ok ts) := htok
  obtain ⟨suf, hout, -, hch⟩ :=
    tokenizeRun_ok_inv s.data.length s.data 0 [] ts le_rfl htok'
  have hts : ts = suf := by simpa using hout
  obtain ⟨-, hna, hvars⟩ := parse_ok_struct ts.length ts T le_rfl hp
  intro nm hnm
  obtain ⟨i, t, hgt, hk⟩ := hvars nm hnm
  rw [hts] at hgt
  rw [← hts] at hch
  exact goodName_of_tokens ts (by rw [hts] at hch ⊢; exact hch) hna i t nm
    (by rw [hts]; exact hgt) hk

/-! ## Totality of evaluation on covering contexts -/

theorem eval_total : ∀ (e : Expr) (ctxt : EvaluationContext), coversVars ctxt e →
    ∃ b, eval e ctxt = some b := by
  intro e
  induction e with
  | Value v =>
    intro ctxt _
    exact ⟨v, rfl⟩
  | Variable nm =>
    intro ctxt hc
    have h1 := hc nm (by simp [varsOf])
    rcases h : mapFind ctxt.values nm with _ | b
    · rw [h] at h1
      simp at h1
    · exact ⟨b, by simp [eval, ctxtGet, h]⟩
  | UnaryExpression op arg ih =>
    intro ctxt hc
    cases op
    obtain ⟨b, hb⟩ := ih ctxt (fun n hn => hc n (by simpa [varsOf] using hn))
    exact ⟨!b, by simp [eval, hb]⟩
  | BinaryExpression op l r ihl ihr =>
    intro ctxt hc
    obtain ⟨a, ha⟩ := ihl ctxt (fun n hn => hc n (by simp [varsOf]; exact Or.inl hn))
    obtain ⟨b, hb⟩ := ihr ctxt (fun n hn => hc n (by simp [varsOf]; exact Or.inr hn))
    cases op with
    | OR =>
      cases a with
      | true => exact ⟨true, by simp [eval, ha]⟩
      | false => exact ⟨b, by simp [eval, ha, hb]⟩
    | AND =>
      cases a with
      | true => exact ⟨b, by simp [eval, ha, hb]⟩
      | false => exact ⟨false, by simp [eval, ha]⟩
    | XOR => exact ⟨a != b, by simp [eval, ha, hb]⟩
    | EQ => exact ⟨a == b, by simp [eval, ha, hb]⟩
    | IMP =>
      cases a with
      | true => exact ⟨b, by simp [eval, ha, hb]⟩
      | false => exact ⟨true, by simp [eval, ha]⟩

/-- **C3.** For every tree `T` produced by a successful `parse_expr`
(tokenize-then-parse) and every context giving a value to each variable of
`T`, tokenizing and parsing `T.to_string()` succeeds and the resulting tree
evaluates to the same boolean as `T` in that context. -/
theorem c3_print_reparse_eval (s : String) (T : Expr) (ctxt : EvaluationContext)
    (hT : parse_expr s = some (Except.ok T)) (hA : coversVars ctxt T) :
    ∃ T2 b, parse_expr (to_string T) = some (Except.ok T2)
      ∧ eval T2 ctxt = some b ∧ eval T ctxt = some b := by
  obtain ⟨r, hrtok, hrmatch⟩ : ∃ r, tokenize s = some r ∧
      (match r with
       | .ok tokens => parse tokens
       | .error err => Except.error err) = .ok T := by
    rcases htk : tokenize s with _ | r
    · rw [parse_expr, htk] at hT
      simp at hT
    · rw [parse_expr, htk] at hT
      exact ⟨r, rfl, by simpa using hT⟩
  cases r with
  | error err => simp at hrmatch
  | ok ts =>
    simp only at hrmatch
    have hg : goodNames T := goodNames_of_parse_tokenize s T ts hrtok hrmatch
    obtain ⟨ts2, htok2, hk2⟩ := tokenize_print T hg
    have hp2 : parse ts2 = .ok T := parse_printKinds T ts2 hk2
    obtain ⟨b, hb⟩ := eval_total T ctxt hA
    refine ⟨T, b, ?_, hb, hb⟩
    rw [parse_expr, htok2]
    simp [hp2]

/-- Witness for C3 at `s = "a|b"` with both variables valued. -/
theorem c3_print_reparse_eval_witness :
    parse_expr "a|b"
      = some (Except.ok (Expr.BinaryExpression .OR (.Variable "a") (.Variable "b")))
    ∧ (∃ T2 b2, parse_expr (to_string
          (Expr.BinaryExpression .OR (.Variable "a") (.Variable "b")))
        = some (Except.ok T2)
      ∧ eval T2 ⟨["a", "b"], [], [("a", true), ("b", false)]⟩ = some b2
      ∧ eval (Expr.BinaryExpression .OR (.Variable "a") (.Variable "b"))
          ⟨["a", "b"], [], [("a", true), ("b", false)]⟩ = some b2) :=
  ⟨by rfl, c3_print_reparse_eval "a|b"
    (Expr.BinaryExpression .OR (.Variable "a") (.Variable "b"))
    ⟨["a", "b"], [], [("a", true), ("b", false)]⟩ (by rfl)
    (by intro n hn; simp [varsOf] at hn; rcases hn with rfl | rfl <;> rfl)⟩

/-! ## Operator semantics of eval (C4) -/

theorem coversVars_bin_left {ctxt : EvaluationContext} {op : BinaryOperator}
    {l r : Expr} (h : coversVars ctxt (.BinaryExpression op l r)) : coversVars ctxt l :=
  fun n hn => h n (by simp [varsOf]; exact Or.inl hn)

theorem coversVars_bin_right {ctxt : EvaluationContext} {op : BinaryOperator}
    {l r : Expr} (h : coversVars ctxt (.BinaryExpression op l r)) : coversVars ctxt r :=
  fun n hn => h n (by simp [varsOf]; exact Or.inr hn)

theorem coversVars_unary {ctxt : EvaluationContext} {op : UnaryOperator}
    {arg : Expr} (h : coversVars ctxt (.UnaryExpression op arg)) : coversVars ctxt arg :=
  fun n hn => h n (by simpa [varsOf] using hn)

/-- **C4.** In a context valuing every variable of the expression, `OR`
evaluates to the disjunction of the operands' values, `AND` to the
conjunction, `XOR` to their inequality, `EQ` to their equality, `IMP` to
(not left) or right, `NEG` to the negation of its operand, and a `Value`
node to its stored constant. -/
theorem c4_eval_operator_semantics (l r arg : Expr) (ctxt : EvaluationContext) (v : Bool) :
    (coversVars ctxt (.BinaryExpression .OR l r) → ∃ a b, eval l ctxt = some a
      ∧ eval r ctxt = some b ∧ eval (.BinaryExpression .OR l r) ctxt = some (a || b))
  ∧ (coversVars ctxt (.BinaryExpression .AND l r) → ∃ a b, eval l ctxt = some a
      ∧ eval r ctxt = some b ∧ eval (.BinaryExpression .AND l r) ctxt = some (a && b))
  ∧ (coversVars ctxt (.BinaryExpression .XOR l r) → ∃ a b, eval l ctxt = some a
      ∧ eval r ctxt = some b ∧ eval (.BinaryExpression .XOR l r) ctxt = some (a != b))
  ∧ (coversVars ctxt (.BinaryExpression .EQ l r) → ∃ a b, eval l ctxt = some a
      ∧ eval r ctxt = some b ∧ eval (.BinaryExpression .EQ l r) ctxt = some (a == b))
  ∧ (coversVars ctxt (.BinaryExpression .IMP l r) → ∃ a b, eval l ctxt = some a
      ∧ eval r ctxt = some b ∧ eval (.BinaryExpression .IMP l r) ctxt = some (!a || b))
  ∧ (coversVars ctxt (.UnaryExpression .NEG arg) → ∃ a, eval arg ctxt = some a
      ∧ eval (.UnaryExpression .NEG arg) ctxt = some (!a))
  ∧ eval (.Value v) ctxt = some v := by
  refine ⟨?_, ?_, ?_, ?_, ?_, ?_, rfl⟩
  · intro h
    obtain ⟨a, ha⟩ := eval_total l ctxt (coversVars_bin_left h)
    obtain ⟨b, hb⟩ := eval_total r ctxt (coversVars_bin_right h)
    refine ⟨a, b, ha, hb, ?_⟩
    cases a <;> simp [eval, ha, hb]
  · intro h
    obtain ⟨a, ha⟩ := eval_total l ctxt (coversVars_bin_left h)
    obtain ⟨b, hb⟩ := eval_total r ctxt (coversVars_bin_right h)
    refine ⟨a, b, ha, hb, ?_⟩
    cases a <;> simp [eval, ha, hb]
  · intro h
    obtain ⟨a, ha⟩ := eval_total l ctxt (coversVars_bin_left h)
    obtain ⟨b, hb⟩ := eval_total r ctxt (coversVars_bin_right h)
    exact ⟨a, b, ha, hb, by simp [eval, ha, hb]⟩
  · intro h
    obtain ⟨a, ha⟩ := eval_total l ctxt (coversVars_bin_left h)
    obtain ⟨b, hb⟩ := eval_total r ctxt (coversVars_bin_right h)
    exact ⟨a, b, ha, hb, by simp [eval, ha, hb]⟩
  · intro h
    obtain ⟨a, ha⟩ := eval_total l ctxt (coversVars_bin_left h)
    obtain ⟨b, hb⟩ := eval_total r ctxt (coversVars_bin_right h)
    refine ⟨a, b, ha, hb, ?_⟩
    cases a <;> simp [eval, ha, hb]
  · intro h
    obtain ⟨a, ha⟩ := eval_total arg ctxt (coversVars_unary h)
    exact ⟨a, ha, by simp [eval, ha]⟩

/-- Witness for C4 on variable-free operands. -/
theorem c4_eval_operator_semantics_witness :
    (∃ a b, eval (.Value true) ⟨[], [], []⟩ = some a
      ∧ eval (.Value false) ⟨[], [], []⟩ = some b
      ∧ eval (.BinaryExpression .OR (.Value true) (.Value false)) ⟨[], [], []⟩
          = some (a || b))
  ∧ (∃ a b, eval (.Value true) ⟨[], [], []⟩ = some a
      ∧ eval (.Value false) ⟨[], [], []⟩ = some b
      ∧ eval (.BinaryExpression .AND (.Value true) (.Value false)) ⟨[], [], []⟩
          = some (a && b))
  ∧ (∃ a b, eval (.Value true) ⟨[], [], []⟩ = some a
      ∧ eval (.Value false) ⟨[], [], []⟩ = some b
      ∧ eval (.BinaryExpression .XOR (.Value true) (.Value false)) ⟨[], [], []⟩
          = some (a != b))
  ∧ (∃ a b, eval (.Value true) ⟨[], [], []⟩ = some a
      ∧ eval (.Value false) ⟨[], [], []⟩ = some b
      ∧ eval (.BinaryExpression .EQ (.Value true) (.Value false)) ⟨[], [], []⟩
          = some (a == b))
  ∧ (∃ a b, eval (.Value true) ⟨[], [], []⟩ = some a
      ∧ eval (.Value false) ⟨[], [], []⟩ = some b
      ∧ eval (.BinaryExpression .IMP (.Value true) (.Value false)) ⟨[], [], []⟩
          = some (!a || b))
  ∧ (∃ a, eval (.Value true) ⟨[], [], []⟩ = some a
      ∧ eval (.UnaryExpression .NEG (.Value true)) ⟨[], [], []⟩ = some (!a)) := by
  have h := c4_eval_operator_semantics (.Value true) (.Value false) (.Value true)
    ⟨[], [], []⟩ true
  have hc : ∀ e : Expr, varsOf e = [] → coversVars ⟨[], [], []⟩ e := by
    intro e he n hn
    rw [he] at hn
    simp at hn
  exact ⟨h.1 (hc _ rfl), h.2.1 (hc _ rfl), h.2.2.1 (hc _ rfl), h.2.2.2.1 (hc _ rfl),
    h.2.2.2.2.1 (hc _ rfl), h.2.2.2.2.2.1 (hc _ rfl)⟩

/-! ## Map and set helper lemmas -/

theorem mapFind_mapInsert_self (m : List (String × Bool)) (k : String) (v : Bool) :
    mapFind (mapInsert m k v) k = some v := by
  induction m with
  | nil => simp [mapInsert, mapFind]
  | cons p m2 ih =>
    obtain ⟨k2, v2⟩ := p
    by_cases h : k2 = k
    · simp [mapInsert, mapFind, h]
    · simp [mapInsert, mapFind, h, ih]

theorem mapFind_mapInsert_ne (m : List (String × Bool)) (k x : String) (v : Bool)
    (h : x ≠ k) : mapFind (mapInsert m k v) x = mapFind m x := by
  induction m with
  | nil =>
    show (if k = x then some v else mapFind [] x) = mapFind [] x
    rw [if_neg (fun hh => h hh.symm)]
  | cons p m2 ih =>
    obtain ⟨k2, v2⟩ := p
    by_cases h2 : k2 = k
    · subst h2
      rw [show mapInsert ((k2, v2) :: m2) k2 v = (k2, v) :: m2 from by simp [mapInsert]]
      show (if k2 = x then some v else mapFind m2 x)
        = (if k2 = x then some v2 else mapFind m2 x)
      rw [if_neg (fun hh => h hh.symm), if_neg (fun hh => h hh.symm)]
    · simp only [mapInsert, if_neg h2, mapFind]
      by_cases h3 : k2 = x
      · rw [if_pos h3, if_pos h3]
      · rw [if_neg h3, if_neg h3, ih]

theorem not_mem_setRemove (s : List String) (x : String) : x ∉ setRemove s x := by
  intro h
  rcases List.mem_filter.mp h with ⟨-, h2⟩
  simp at h2

/-- **C8.** `preset` on an undeclared name errors and leaves the context
unchanged; on an already-preset name it errors, leaves the context (and in
particular the recorded value) unchanged; on a fresh declared name it
returns `Ok` of the value, removes the name from `not_preset`, records the
value, and keeps the declared variable set. -/
theorem c8_preset_cases (ctxt : EvaluationContext) (name : String) (v : Bool) :
    (name ∉ ctxt.vars →
      (∃ msg, (preset ctxt name v).1 = .error msg) ∧ (preset ctxt name v).2 = ctxt)
  ∧ (name ∈ ctxt.vars → name ∉ ctxt.not_preset →
      (∃ msg, (preset ctxt name v).1 = .error msg)
      ∧ mapFind (preset ctxt name v).2.values name = mapFind ctxt.values name
      ∧ (preset ctxt name v).2 = ctxt)
  ∧ (name ∈ ctxt.vars → name ∈ ctxt.not_preset →
      (preset ctxt name v).1 = .ok v
      ∧ name ∉ (preset ctxt name v).2.not_preset
      ∧ mapFind (preset ctxt name v).2.values name = some v
      ∧ (preset ctxt name v).2.vars = ctxt.vars) := by
  refine ⟨?_, ?_, ?_⟩
  · intro h
    rw [preset, if_neg h]
    exact ⟨⟨_, rfl⟩, rfl⟩
  · intro h1 h2
    rw [preset, if_pos h1, if_neg h2]
    exact ⟨⟨_, rfl⟩, rfl, rfl⟩
  · intro h1 h2
    rw [preset, if_pos h1, if_pos h2]
    exact ⟨rfl, not_mem_setRemove _ _, mapFind_mapInsert_self _ _ _, rfl⟩

/-- Witness for C8: an unknown name, a doubly preset name, and a fresh
name, on a context declaring `a` (already preset to `true`) and `b`. -/
theorem c8_preset_cases_witness :
    ((∃ msg, (preset ⟨["a", "b"], ["b"], [("a", true)]⟩ "z" true).1 = .error msg)
      ∧ (preset ⟨["a", "b"], ["b"], [("a", true)]⟩ "z" true).2
          = ⟨["a", "b"], ["b"], [("a", true)]⟩)
  ∧ ((∃ msg, (preset ⟨["a", "b"], ["b"], [("a", true)]⟩ "a" false).1 = .error msg)
      ∧ mapFind (preset ⟨["a", "b"], ["b"], [("a", true)]⟩ "a" false).2.values "a"
          = mapFind [("a", true)] "a"
      ∧ (preset ⟨["a", "b"], ["b"], [("a", true)]⟩ "a" false).2
          = ⟨["a", "b"], ["b"], [("a", true)]⟩)
  ∧ ((preset ⟨["a", "b"], ["b"], [("a", true)]⟩ "b" false).1 = .ok false
      ∧ "b" ∉ (preset ⟨["a", "b"], ["b"], [("a", true)]⟩ "b" false).2.not_preset
      ∧ mapFind (preset ⟨["a", "b"], ["b"], [("a", true)]⟩ "b" false).2.values "b"
          = some false
      ∧ (preset ⟨["a", "b"], ["b"], [("a", true)]⟩ "b" false).2.vars = ["a", "b"]) :=
  ⟨(c8_preset_cases ⟨["a", "b"], ["b"], [("a", true)]⟩ "z" true).1 (by decide),
   (c8_preset_cases ⟨["a", "b"], ["b"], [("a", true)]⟩ "a" false).2.1
     (by decide) (by decide),
   (c8_preset_cases ⟨["a", "b"], ["b"], [("a", true)]⟩ "b" false).2.2
     (by decide) (by decide)⟩

/-! ## Frame property of set_not_presets (C10) -/

theorem set_not_presetsGo_frame (mask : Nat) :
    ∀ (vs : List String) (values : List (String × Bool)) (i : Nat) (x : String),
      x ∉ vs → mapFind (set_not_presetsGo mask values vs i) x = mapFind values x := by
  intro vs
  induction vs with
  | nil =>
    intro values i x _
    rfl
  | cons w vs2 ih =>
    intro values i x hx
    have hxw : x ≠ w := fun h => hx (h ▸ List.mem_cons_self w vs2)
    rw [set_not_presetsGo, ih _ (i + 1) x (fun h => hx (List.mem_cons_of_mem w h)),
      mapFind_mapInsert_ne _ _ _ _ hxw]

/-- **C10.** `set_not_presets` leaves the declared variable set and the
`not_preset` set unchanged, and preserves the mapped value of every name
outside `not_preset`; in particular earlier presets persist across all
enumeration rows. -/
theorem c10_set_not_presets_frame (ctxt : EvaluationContext) (mask : Nat) :
    (set_not_presets ctxt mask).vars = ctxt.vars
  ∧ (set_not_presets ctxt mask).not_preset = ctxt.not_preset
  ∧ ∀ x, x ∉ ctxt.not_preset →
      mapFind (set_not_presets ctxt mask).values x = mapFind ctxt.values x :=
  ⟨rfl, rfl, fun x hx => set_not_presetsGo_frame mask ctxt.not_preset ctxt.values 0 x hx⟩

/-- Witness for C10: a preset value of `a` survives `set_not_presets 3`
on a context whose only not-preset variable is `b`. -/
theorem c10_set_not_presets_frame_witness :
    (set_not_presets ⟨["a", "b"], ["b"], [("a", true)]⟩ 3).vars = ["a", "b"]
  ∧ (set_not_presets ⟨["a", "b"], ["b"], [("a", true)]⟩ 3).not_preset = ["b"]
  ∧ mapFind (set_not_presets ⟨["a", "b"], ["b"], [("a", true)]⟩ 3).values "a"
      = mapFind [("a", true)] "a" :=
  ⟨(c10_set_not_presets_frame ⟨["a", "b"], ["b"], [("a", true)]⟩ 3).1,
   (c10_set_not_presets_frame ⟨["a", "b"], ["b"], [("a", true)]⟩ 3).2.1,
   (c10_set_not_presets_frame ⟨["a", "b"], ["b"], [("a", true)]⟩ 3).2.2 "a" (by decide)⟩

/-! ## Truth-table enumeration (C5) -/

theorem and_shift_testBit (mask i : Nat) : ((mask &&& (1 <<< i)) != 0) = mask.testBit i := by
  rw [Nat.shiftLeft_eq, one_mul, Nat.and_two_pow]
  cases h : mask.testBit i
  · simp [h]
  · simp only [h, Bool.toNat_true, one_mul, bne_iff_ne, ne_eq]
    exact pow_ne_zero i (by decide)

theorem set_not_presetsGo_find (mask : Nat) :
    ∀ (vs : List String) (values : List (String × Bool)) (i0 : Nat),
      vs.Nodup → ∀ j v, vs.get? j = some v →
      mapFind (set_not_presetsGo mask values vs i0) v = some (mask.testBit (i0 + j)) := by
  intro vs
  induction vs with
  | nil =>
    intro values i0 _ j v hj
    simp at hj
  | cons w vs2 ih =>
    intro values i0 hnd j v hj
    cases j with
    | zero =>
      simp only [List.get?_cons_zero, Option.some.injEq] at hj
      subst hj
      rw [Nat.add_zero, set_not_presetsGo,
        set_not_presetsGo_frame mask vs2 _ (i0 + 1) w (List.nodup_cons.mp hnd).1,
        mapFind_mapInsert_self, and_shift_testBit]
    | succ j2 =>
      rw [List.get?_cons_succ] at hj
      rw [set_not_presetsGo, ih _ (i0 + 1) (List.nodup_cons.mp hnd).2 j2 v hj]
      congr 2
      omega

theorem ofBits_lt : ∀ bs : List Bool, ofBits bs < 2 ^ bs.length := by
  intro bs
  induction bs with
  | nil => simp [ofBits]
  | cons b bs2 ih =>
    have h2 : ofBits (b :: bs2) = (if b then 1 else 0) + 2 * ofBits bs2 := rfl
    rw [h2, List.length_cons, pow_succ]
    cases b <;> simp <;> omega

theorem ofBits_testBit : ∀ (bs : List Bool) (j : Nat) (b : Bool), bs.get? j = some b →
    (ofBits bs).testBit j = b := by
  intro bs
  induction bs with
  | nil =>
    intro j b h
    simp at h
  | cons b0 bs2 ih =>
    intro j b h
    cases j with
    | zero =>
      simp only [List.get?_cons_zero, Option.some.injEq] at h
      subst h
      rw [show ofBits (b0 :: bs2) = (if b0 then 1 else 0) + 2 * ofBits bs2 from rfl]
      cases b0 <;> simp [Nat.testBit_zero] <;> omega
    | succ j2 =>
      rw [List.get?_cons_succ] at h
      rw [show ofBits (b0 :: bs2) = (if b0 then 1 else 0) + 2 * ofBits bs2 from rfl,
        Nat.testBit_succ,
        show ((if b0 then 1 else 0) + 2 * ofBits bs2) / 2 = ofBits bs2 from by
          cases b0 <;> simp <;> omega]
      exact ih j2 b h

/-- **C5.** On a context whose `not_preset` list is sorted ascending (the
`BTreeSet` iteration order) with at most 128 entries: after
`set_not_presets mask` the `j`-th not-preset variable is mapped to bit `j`
of `mask`; distinct masks below `2 ^ k` produce distinct assignments; and
every boolean assignment of the `k` variables is produced by some mask
below `2 ^ k`. -/
theorem c5_truth_table_enumeration (ctxt : EvaluationContext) (mask : Nat)
    (hsorted : List.Sorted (· < ·) ctxt.not_preset)
    (hk : ctxt.not_preset.length ≤ 128) :
    (∀ j v, ctxt.not_preset.get? j = some v →
        mapFind (set_not_presets ctxt mask).values v = some (mask.testBit j))
  ∧ (∀ mask2 : Nat, mask < 2 ^ ctxt.not_preset.length →
      mask2 < 2 ^ ctxt.not_preset.length →
      (∀ j v, ctxt.not_preset.get? j = some v →
        mapFind (set_not_presets ctxt mask).values v
          = mapFind (set_not_presets ctxt mask2).values v) →
      mask = mask2)
  ∧ (∀ f : Fin ctxt.not_preset.length → Bool, ∃ m, m < 2 ^ ctxt.not_preset.length ∧
      ∀ i : Fin ctxt.not_preset.length,
        mapFind (set_not_presets ctxt m).values (ctxt.not_preset.get i) = some (f i)) := by
  have hfind : ∀ (mk j : Nat) (v : String), ctxt.not_preset.get? j = some v →
      mapFind (set_not_presets ctxt mk).values v = some (mk.testBit j) := by
    intro mk j v hj
    have h := set_not_presetsGo_find mk ctxt.not_preset ctxt.values 0 hsorted.nodup j v hj
    simpa [set_not_presets] using h
  refine ⟨fun j v hj => hfind mask j v hj, ?_, ?_⟩
  · intro mask2 hm hm2 hrow
    apply Nat.eq_of_testBit_eq
    intro i
    by_cases hi : i < ctxt.not_preset.length
    · obtain ⟨v, hv⟩ : ∃ v, ctxt.not_preset.get? i = some v :=
        ⟨ctxt.not_preset.get ⟨i, hi⟩, List.get?_eq_get hi⟩
      have e1 := hfind mask i v hv
      have e2 := hfind mask2 i v hv
      rw [hrow i v hv, e2] at e1
      exact (Option.some.inj e1).symm
    · rw [Nat.testBit_lt_two_pow
          (lt_of_lt_of_le hm (Nat.pow_le_pow_right (by decide) (by omega))),
        Nat.testBit_lt_two_pow
          (lt_of_lt_of_le hm2 (Nat.pow_le_pow_right (by decide) (by omega)))]
  · intro f
    refine ⟨ofBits (List.ofFn f), ?_, ?_⟩
    · have h := ofBits_lt (List.ofFn f)
      simpa [List.length_ofFn] using h
    · intro i
      have hv : ctxt.not_preset.get? i.val = some (ctxt.not_preset.get i) :=
        List.get?_eq_get i.isLt
      rw [hfind (ofBits (List.ofFn f)) i.val _ hv]
      congr 1
      apply ofBits_testBit
      rw [List.get?_ofFn]
      simp [List.ofFnNthVal, i.isLt]

/-- Witness for C5 on the two-variable context `{a, b}` with mask `2`. -/
theorem c5_truth_table_enumeration_witness :
    (∀ j v, (["a", "b"] : List String).get? j = some v →
        mapFind (set_not_presets ⟨["a", "b"], ["a", "b"], []⟩ 2).values v
          = some (Nat.testBit 2 j))
  ∧ (∀ mask2 : Nat, 2 < 2 ^ (["a", "b"] : List String).length →
      mask2 < 2 ^ (["a", "b"] : List String).length →
      (∀ j v, (["a", "b"] : List String).get? j = some v →
        mapFind (set_not_presets ⟨["a", "b"], ["a", "b"], []⟩ 2).values v
          = mapFind (set_not_presets ⟨["a", "b"], ["a", "b"], []⟩ mask2).values v) →
      2 = mask2)
  ∧ (∀ f : Fin (["a", "b"] : List String).length → Bool,
      ∃ m, m < 2 ^ (["a", "b"] : List String).length ∧
      ∀ i : Fin (["a", "b"] : List String).length,
        mapFind (set_not_presets ⟨["a", "b"], ["a", "b"], []⟩ m).values
            ((["a", "b"] : List String).get i) = some (f i)) :=
  c5_truth_table_enumeration ⟨["a", "b"], ["a", "b"], []⟩ 2
    (by
      simp only [List.sorted_cons, List.mem_singleton, List.sorted_singleton, and_true,
        forall_eq]
      rw [String.lt_iff_toList_lt]
      decide)
    (by decide)

/-! ## Multibyte input makes the tokenizer panic (C9) -/

/-- **C9.** The tokenizer is not total on its declared type: the identifier
loop bounds the character index `i` by the byte length of the rest of the
input while `char_at` indexes characters, so on the two-byte alphabetic
character `é` it calls `chars().nth(1).unwrap()` past the last character
and panics (modelled by `none`) instead of returning a `Result`. -/
theorem c9_tokenize_panics_on_multibyte : tokenize "é" = none := rfl

/-! ## The binary-"!" error span (C6) -/

/-- **C6.** On `"x|y!z"` the parser splits the right-hand slice `y!z` at
the `!` token with both sides non-empty and errors with "unexpected left
hand side operand", `pos = 2` (start of the left operand `y`) and
`len = 3`: the `len` field stores the absolute end offset of the last
left-operand token, not the span length, so `pos + len = 5` instead of the
claimed end offset `3` of the purported left operand. -/
theorem c6_unexpected_lhs_len_is_end_offset :
    ∃ err, parse_expr "x|y!z" = some (Except.error err)
      ∧ err.message = "unexpected left hand side operand"
      ∧ err.pos = 2 ∧ err.len = 3
      ∧ err.pos + err.len ≠ 3 :=
  ⟨⟨"unexpected left hand side operand", 2, 3⟩, rfl, rfl, rfl, rfl, by decide⟩

/-! ## The precedence scan takes the first minimal operator (C1, C2) -/

/-- Counterexample to C1 as stated: on `!a & b ^ c | d = e => f` the scan
does not select the rightmost lowest-precedence operator `=>`; the parse
succeeds but the outermost node is not the implication. -/
theorem c1_counterexample :
    ∃ e, parse_expr "!a & b ^ c | d = e => f" = some (Except.ok e)
      ∧ isImp e = false :=
  ⟨_, rfl, rfl⟩

/-- **C1 (amended).** The precedence scan selects the FIRST depth-0
operator of minimal precedence: on `!a & b ^ c | d = e => f` it picks the
`=` at token index 8, and the parse result dumps as an equality whose
right side holds the implication. -/
theorem c1_first_minimal_split :
    ∃ ts e, tokenize "!a & b ^ c | d = e => f" = some (Except.ok ts)
      ∧ find_top_level_operator ts = some 8
      ∧ parse ts = Except.ok e
      ∧ to_dump_string e
        = "Eq(Xor(And(Neg(Variable(a)),Variable(b)),Or(Variable(c),Variable(d))),Imp(Variable(e),Variable(f)))" :=
  ⟨_, _, rfl, rfl, rfl, rfl⟩

/-- Counterexample to C2 as stated: `a&b&c` parses to the right-nested
`And(Variable(a),And(Variable(b),Variable(c)))`, not the claimed
left-nested `And(And(Variable(a),Variable(b)),Variable(c))`. -/
theorem c2_counterexample :
    ∃ e, parse_expr "a&b&c" = some (Except.ok e)
      ∧ to_dump_string e = "And(Variable(a),And(Variable(b),Variable(c)))"
      ∧ to_dump_string e ≠ "And(And(Variable(a),Variable(b)),Variable(c))" :=
  ⟨_, rfl, rfl, by intro h; rw [show to_dump_string (Expr.BinaryExpression .AND
    (.Variable "a") (.BinaryExpression .AND (.Variable "b") (.Variable "c")))
      = "And(Variable(a),And(Variable(b),Variable(c)))" from rfl] at h; simp at h⟩

/-! ## Equal-precedence chains nest to the right (C2 amended) -/

theorem chainToks_opsMin (p : Nat) :
    ∀ (v : String) (rest : List (BinaryOperator × String)),
      (∀ x ∈ rest, binPrecedence x.1 = p) →
      opsMin ((chainToks v rest).map Token.kind) 0 p := by
  intro v rest
  induction rest generalizing v with
  | nil =>
    intro _
    refine ⟨?_, trivial⟩
    intro nm h
    exact absurd h (by simp)
  | cons hd tl ih =>
    obtain ⟨o2, v2⟩ := hd
    intro hall
    rw [show (chainToks v ((o2, v2) :: tl)).map Token.kind
        = TokenKind.Variable v :: TokenKind.Operator (opSymbol o2)
          :: (chainToks v2 tl).map Token.kind from rfl]
    rw [opsMin]
    refine ⟨fun nm h => absurd h (by simp), ?_⟩
    rw [show (0 : Int) + kdepth (TokenKind.Variable v) = 0 from by simp [kdepth]]
    rw [opsMin]
    refine ⟨?_, ?_⟩
    · intro nm h _
      injection h with h2
      subst h2
      rw [get_precedence_opSymbol]
      exact le_of_eq (hall (o2, v2) (List.mem_cons_self _ _)).symm
    · rw [show (0 : Int) + kdepth (TokenKind.Operator (opSymbol o2)) = 0 from by
        simp [kdepth]]
      exact ih v2 (fun x hx => hall x (List.mem_cons_of_mem _ hx))

theorem chainToks_find (v0 : String) (o : BinaryOperator) (v1 : String)
    (rest : List (BinaryOperator × String))
    (hall : ∀ x ∈ rest, binPrecedence x.1 = binPrecedence o) :
    find_top_level_operator (chainToks v0 ((o, v1) :: rest)) = some 1 := by
  rw [find_top_level_operator]
  rw [show chainToks v0 ((o, v1) :: rest)
      = ⟨0, TokenKind.Variable v0⟩ :: ⟨0, TokenKind.Operator (opSymbol o)⟩
        :: chainToks v1 rest from rfl]
  simp only [findGo, has_higher_precedence, if_true]
  have hmin : opsMin ((chainToks v1 rest).map Token.kind) 0
      (get_precedence (opSymbol o)) := by
    rw [get_precedence_opSymbol]
    exact chainToks_opsMin (binPrecedence o) v1 rest hall
  rw [findGo_keep (chainToks v1 rest) (0 + 1 + 1) (0 + 1) 0
    ⟨0, TokenKind.Operator (opSymbol o)⟩ (opSymbol o) rfl hmin]
  rfl

theorem opExpr_at_one (v0 : String) (o : BinaryOperator) (tail : List Token) (e2 : Expr)
    (hne : tail ≠ []) (hp : parse tail = .ok e2) :
    parse_operator_expressionG parse
        (⟨0, TokenKind.Variable v0⟩ :: ⟨0, TokenKind.Operator (opSymbol o)⟩ :: tail) 1
      = .ok (.BinaryExpression o (.Variable v0) e2) := by
  have hlen : 1 < (⟨0, TokenKind.Variable v0⟩ :: ⟨0, TokenKind.Operator (opSymbol o)⟩
      :: tail).length - 1 := by
    simp only [List.length_cons]
    have := List.length_pos.mpr hne
    omega
  simp only [parse_operator_expressionG, List.get?_cons_succ, List.get?_cons_zero]
  rw [if_pos (by decide : 0 < 1)]
  rw [show (⟨0, TokenKind.Variable v0⟩ :: ⟨0, TokenKind.Operator (opSymbol o)⟩
      :: tail).take 1 = [⟨0, TokenKind.Variable v0⟩] from rfl]
  rw [show parse [(⟨0, TokenKind.Variable v0⟩ : Token)]
      = .ok (.Variable v0) from rfl]
  simp only [Except.map]
  rw [if_pos hlen]
  rw [show (⟨0, TokenKind.Variable v0⟩ :: ⟨0, TokenKind.Operator (opSymbol o)⟩
      :: tail).drop 2 = tail from rfl]
  rw [hp]
  simp only [Except.map]
  cases o with
  | OR =>
    rw [show token_name ⟨0, TokenKind.Operator (opSymbol .OR)⟩ = "|" from rfl]
    rw [if_neg (by decide), if_pos rfl]
  | AND =>
    rw [show token_name ⟨0, TokenKind.Operator (opSymbol .AND)⟩ = "&" from rfl]
    rw [if_neg (by decide), if_neg (by decide), if_pos rfl]
  | XOR =>
    rw [show token_name ⟨0, TokenKind.Operator (opSymbol .XOR)⟩ = "^" from rfl]
    rw [if_neg (by decide), if_neg (by decide), if_neg (by decide), if_pos rfl]
  | EQ =>
    rw [show token_name ⟨0, TokenKind.Operator (opSymbol .EQ)⟩ = "=" from rfl]
    rw [if_neg (by decide), if_neg (by decide), if_neg (by decide), if_neg (by decide),
      if_pos rfl]
  | IMP =>
    rw [show token_name ⟨0, TokenKind.Operator (opSymbol .IMP)⟩ = "=>" from rfl]
    rw [if_neg (by decide), if_neg (by decide), if_neg (by decide), if_neg (by decide),
      if_neg (by decide), if_pos rfl]

/-- **C2 (amended).** A chain of two or more operands joined by operators
of one common precedence parses to the RIGHT-nested tree: the scan keeps
the FIRST minimal-precedence depth-0 operator, so every split is after the
first operand.  (Amended from the claim, which asserted left-to-right
grouping.) -/
theorem c2_equal_precedence_chain_right_nested (v0 : String) (o : BinaryOperator)
    (v1 : String) (rest : List (BinaryOperator × String))
    (hall : ∀ x ∈ rest, binPrecedence x.1 = binPrecedence o) :
    parse (chainToks v0 ((o, v1) :: rest)) = .ok (chainExpr v0 ((o, v1) :: rest)) := by
  induction rest generalizing v0 o v1 with
  | nil =>
    have hf := chainToks_find v0 o v1 [] (by simp)
    rw [show chainToks v0 [(o, v1)] = ⟨0, TokenKind.Variable v0⟩
      :: ⟨0, TokenKind.Operator (opSymbol o)⟩
      :: [⟨0, TokenKind.Variable v1⟩] from rfl] at hf ⊢
    rw [parse_eq_op (by simp only [List.length_cons]; omega) hf]
    rw [show chainExpr v0 [(o, v1)]
      = .BinaryExpression o (.Variable v0) (.Variable v1) from rfl]
    exact opExpr_at_one v0 o [⟨0, TokenKind.Variable v1⟩] (.Variable v1) (by simp) rfl
  | cons hd tl ih =>
    obtain ⟨o2, v2⟩ := hd
    have hf := chainToks_find v0 o v1 ((o2, v2) :: tl) hall
    have hpo : binPrecedence o2 = binPrecedence o :=
      hall (o2, v2) (List.mem_cons_self _ _)
    have htl : ∀ x ∈ tl, binPrecedence x.1 = binPrecedence o2 := fun x hx =>
      (hall x (List.mem_cons_of_mem _ hx)).trans hpo.symm
    have hrec := ih v1 o2 v2 htl
    have hcne : chainToks v1 ((o2, v2) :: tl) ≠ [] := by
      rw [show chainToks v1 ((o2, v2) :: tl) = ⟨0, TokenKind.Variable v1⟩
        :: ⟨0, TokenKind.Operator (opSymbol o2)⟩ :: chainToks v2 tl from rfl]
      simp
    rw [show chainToks v0 ((o, v1) :: (o2, v2) :: tl)
      = ⟨0, TokenKind.Variable v0⟩ :: ⟨0, TokenKind.Operator (opSymbol o)⟩
        :: chainToks v1 ((o2, v2) :: tl) from rfl] at hf ⊢
    rw [parse_eq_op (by simp only [List.length_cons]; omega) hf]
    rw [show chainExpr v0 ((o, v1) :: (o2, v2) :: tl)
      = .BinaryExpression o (.Variable v0) (chainExpr v1 ((o2, v2) :: tl)) from rfl]
    exact opExpr_at_one v0 o (chainToks v1 ((o2, v2) :: tl))
      (chainExpr v1 ((o2, v2) :: tl)) hcne hrec

/-- Witness for C2 (amended): the chain `a & b & c`. -/
theorem c2_equal_precedence_chain_right_nested_witness :
    parse (chainToks "a" [(.AND, "b"), (.AND, "c")])
      = .ok (chainExpr "a" [(.AND, "b"), (.AND, "c")]) :=
  c2_equal_precedence_chain_right_nested "a" .AND "b" [(.AND, "c")] (by decide)

/-! ## Unclosed parenthesis (C7) -/

/-- Counterexample to C7 as stated: the single-token list `[(]` has no
depth-0 operator, starts with an open parenthesis, and its depth never
returns to zero, yet parse reports "value or variable expected" at the
token itself, not "\")\" expected" past it. -/
theorem c7_counterexample :
    find_top_level_operator [(⟨0, TokenKind.OpenParanthesis⟩ : Token)] = none
    ∧ (∀ n, 1 ≤ n → n ≤ 1 →
        1 ≤ depthSum ((([(⟨0, TokenKind.OpenParanthesis⟩ : Token)]).map
          Token.kind).take n))
    ∧ parse [(⟨0, TokenKind.OpenParanthesis⟩ : Token)]
        = .error ⟨"value or variable expected", 0, 1⟩
    ∧ parse [(⟨0, TokenKind.OpenParanthesis⟩ : Token)]
        ≠ .error ⟨"\")\" expected", 1, 0⟩ := by
  refine ⟨rfl, ?_, rfl, ?_⟩
  · intro n h1 h2
    have : n = 1 := by omega
    subst this
    decide
  · intro h
    rw [show parse [(⟨0, TokenKind.OpenParanthesis⟩ : Token)]
      = .error ⟨"value or variable expected", 0, 1⟩ from rfl] at h
    simp at h

/-- **C7 (amended).** For token lists of length at least TWO with no
depth-0 operator, first token an open parenthesis, and every non-empty
prefix at positive depth, parse fails with "\")\" expected" immediately
past the last token with a zero-length span.  (Amended from the claim: the
single-token list `[(]` instead reports "value or variable expected".) -/
theorem c7_close_paren_expected (t0 : Token) (rest : List Token)
    (hrest : rest ≠ [])
    (hfind : find_top_level_operator (t0 :: rest) = none)
    (hk0 : t0.kind = TokenKind.OpenParanthesis)
    (hdepth : ∀ n, 1 ≤ n → n ≤ (t0 :: rest).length →
      1 ≤ depthSum (((t0 :: rest).map Token.kind).take n)) :
    parse (t0 :: rest) = .error
      ⟨"\")\" expected",
       (rest.getLast hrest).pos + token_len (rest.getLast hrest), 0⟩ := by
  rw [parse_eq_paren (by
    have := List.length_pos.mpr hrest
    simp only [List.length_cons]
    omega) hfind]
  obtain ⟨p0, k0⟩ := t0
  simp only at hk0
  subst hk0
  have hfull : 1 ≤ depthSum (((⟨p0, TokenKind.OpenParanthesis⟩ : Token) :: rest).map
      Token.kind) := by
    have h := hdepth ((⟨p0, TokenKind.OpenParanthesis⟩ : Token) :: rest).length
      (by simp only [List.length_cons]; omega) le_rfl
    rw [List.take_all_of_le (by simp)] at h
    exact h
  have hps : paren_scan ((⟨p0, TokenKind.OpenParanthesis⟩ : Token) :: rest) 0
      = .ok (0 + depthSum (((⟨p0, TokenKind.OpenParanthesis⟩ : Token) :: rest).map
          Token.kind)) := by
    apply paren_scan_nonneg
    intro n
    cases n with
    | zero => simp [depthSum]
    | succ n2 =>
      by_cases hle : n2 + 1 ≤ ((⟨p0, TokenKind.OpenParanthesis⟩ : Token) :: rest).length
      · have h := hdepth (n2 + 1) (by omega) hle
        omega
      · rw [List.take_all_of_le (by simp only [List.length_map]; omega)]
        omega
  simp only [parse_paranthesis_expressionG, hps]
  rw [if_pos (show (0 : Int) < 0 + depthSum
    (((⟨p0, TokenKind.OpenParanthesis⟩ : Token) :: rest).map Token.kind) from by omega)]
  rw [List.getLast?_eq_getLast _ (by simp), List.getLast_cons hrest]

/-- Witness for C7 (amended): the tokens of `"(a"`. -/
theorem c7_close_paren_expected_witness :
    parse [⟨0, TokenKind.OpenParanthesis⟩, ⟨1, TokenKind.Variable "a"⟩]
      = .error ⟨"\")\" expected", 2, 0⟩ :=
  c7_close_paren_expected ⟨0, TokenKind.OpenParanthesis⟩
    [⟨1, TokenKind.Variable "a"⟩] (by simp) rfl rfl
    (by
      intro n h1 h2
      simp only [List.length_cons, List.length_nil] at h2
      interval_cases n <;> decide)

end Logico
